import Mathlib

/-!
Verification of the workflow execution subsystem of the vuedemo ai-service.

This file gives a shallow embedding of the Python sources

  * app/engine/context.py          (ExecutionContext, variable resolution)
  * app/engine/workflow_engine.py  (graph build, cycle detection, scheduler)
  * app/engine/nodes/base.py       (NodeExecutor.run template)
  * app/engine/nodes/condition_node.py (ConditionNodeExecutor)
  * app/services/execution_service.py  (ExecutionService control operations)

and proves the spec claims about them.  Python dicts are modelled as
insertion-ordered association lists, Python values as the inductive type
Value, exceptions as Except, and the asyncio wave scheduler as a fueled
loop that serializes each wave (sound for the cross-wave ordering facts
proved here, since a wave is awaited as a barrier before the next wave
is formed).
-/

namespace Workflow

/-- The character 0x7b (left curly brace). -/
def lbrace : Char := Char.ofNat 123

/-- The character 0x7d (right curly brace). -/
def rbrace : Char := Char.ofNat 125

/-- Python dict lookup d.get(k) over an insertion-ordered association list. -/
def alGet {α : Type} : List (String × α) → String → Option α
  | [], _ => none
  | (k, v) :: rest, key => if k = key then some v else alGet rest key

/-- Python dict assignment d[k] = v: update in place if present, else append
(insertion order preserved, as in CPython dicts). -/
def alSet {α : Type} : List (String × α) → String → α → List (String × α)
  | [], key, v => [(key, v)]
  | (k, w) :: rest, key, v =>
      if k = key then (k, v) :: rest else (k, w) :: alSet rest key v

/-- Keys of an association list, in insertion order. -/
def alKeys {α : Type} (l : List (String × α)) : List String := l.map Prod.fst

/-- Python values: None, bool, int, str, list, dict. -/
inductive Value where
  | null : Value
  | bool (b : Bool) : Value
  | int (n : Int) : Value
  | str (s : String) : Value
  | list (items : List Value) : Value
  | dict (fields : List (String × Value)) : Value
deriving Repr


mutual

/-- Structural size of a value (computable; the derived sizeOf instance for
this nested inductive has no executable code).  Used as fuel bound for the
fueled recursions below: vsize v strictly exceeds the nesting depth of v. -/
def vsize : Value → Nat
  | .null => 1
  | .bool _ => 1
  | .int _ => 1
  | .str _ => 1
  | .list items => 1 + vsizeL items
  | .dict fields => 1 + vsizeD fields

/-- Structural size of a list of values. -/
def vsizeL : List Value → Nat
  | [] => 0
  | v :: rest => 1 + vsize v + vsizeL rest

/-- Structural size of the field list of a dict value. -/
def vsizeD : List (String × Value) → Nat
  | [] => 0
  | p :: rest => 1 + vsize p.2 + vsizeD rest

end

/-- Python int value of a bool (True is 1, False is 0). -/
def pyNum (b : Bool) : Int := if b then 1 else 0

/-- Python equality (operator.eq), fueled so that it is structurally
recursive and reduces on concrete values; the fuel bounds the nesting depth
of the compared value and pyEq below always supplies enough. Booleans
compare equal to their integer value, lists elementwise, dicts by key
lookup (order-insensitive). -/
def pyEqF : Nat → Value → Value → Bool
  | 0, _, _ => false
  | fuel + 1, a, b =>
      match a, b with
      | .null, .null => true
      | .bool x, .bool y => x == y
      | .bool x, .int y => pyNum x == y
      | .int x, .bool y => x == pyNum y
      | .int x, .int y => x == y
      | .str x, .str y => x == y
      | .list xs, .list ys =>
          xs.length == ys.length && (xs.zip ys).all (fun p => pyEqF fuel p.1 p.2)
      | .dict xs, .dict ys =>
          xs.length == ys.length &&
          xs.all (fun p =>
            match ys.find? (fun q => q.1 == p.1) with
            | some q => pyEqF fuel p.2 q.2
            | none => false)
      | _, _ => false

/-- Python operator.eq on values. -/
def pyEq (a b : Value) : Bool := pyEqF (vsize a) a b

/-- Python lexicographic list comparison loop: the first non-equal pair is
compared with the element order; equal prefixes fall through to length. -/
def lexCompare (ltf : Value → Value → Option Bool) (emptyLeft bothEmpty : Bool) :
    List Value → List Value → Option Bool
  | [], [] => some bothEmpty
  | [], _ :: _ => some emptyLeft
  | _ :: _, [] => some false
  | a :: as, b :: bs =>
      if pyEq a b then lexCompare ltf emptyLeft bothEmpty as bs else ltf a b

/-- Python strict comparison a < b, fueled; none models a raised TypeError
(mixed types, None, dicts). -/
def pyLtF : Nat → Value → Value → Option Bool
  | 0, _, _ => none
  | fuel + 1, a, b =>
      match a, b with
      | .int x, .int y => some (decide (x < y))
      | .int x, .bool y => some (decide (x < pyNum y))
      | .bool x, .int y => some (decide (pyNum x < y))
      | .bool x, .bool y => some (decide (pyNum x < pyNum y))
      | .str x, .str y => some (decide (x < y))
      | .list xs, .list ys => lexCompare (pyLtF fuel) true false xs ys
      | _, _ => none

/-- Python a < b on values. -/
def pyLt (a b : Value) : Option Bool := pyLtF (vsize a + vsize b) a b

/-- Python comparison a <= b, fueled; none models a raised TypeError. -/
def pyLeF : Nat → Value → Value → Option Bool
  | 0, _, _ => none
  | fuel + 1, a, b =>
      match a, b with
      | .int x, .int y => some (decide (x ≤ y))
      | .int x, .bool y => some (decide (x ≤ pyNum y))
      | .bool x, .int y => some (decide (pyNum x ≤ y))
      | .bool x, .bool y => some (decide (pyNum x ≤ pyNum y))
      | .str x, .str y => some (decide (x ≤ y))
      | .list xs, .list ys => lexCompare (pyLtF fuel) true true xs ys
      | _, _ => none

/-- Python a <= b on values. -/
def pyLe (a b : Value) : Option Bool := pyLeF (vsize a + vsize b) a b

/-- Substring test on character lists (Python "needle in haystack" for str). -/
def infixOf (needle : List Char) : List Char → Bool
  | [] => needle.isEmpty
  | c :: rest => needle.isPrefixOf (c :: rest) || infixOf needle rest

/-- Python membership x in c for container c; none models a TypeError
(non-container on the right of in, or an unhashable dict probe). -/
def containerHas : Value → Value → Option Bool
  | .str a, .str b => some (infixOf b.data a.data)
  | .str _, _ => none
  | .list a, b => some (a.any (fun x => pyEq x b))
  | .dict a, .str s => some (a.any (fun p => p.1 == s))
  | .dict _, .int _ => some false
  | .dict _, .bool _ => some false
  | .dict _, .null => some false
  | .dict _, _ => none
  | _, _ => none

/-- The OPERATORS table of ConditionNodeExecutor, applied to
(actual_value, expected_value); none models an exception during evaluation. -/
def applyOp (op : String) (a b : Value) : Option Bool :=
  if op = "eq" then some (pyEq a b)
  else if op = "ne" then some (!pyEq a b)
  else if op = "gt" then pyLt b a
  else if op = "gte" then pyLe b a
  else if op = "lt" then pyLt a b
  else if op = "lte" then pyLe a b
  else if op = "contains" then containerHas a b
  else if op = "in" then containerHas b a
  else none

/-- Python repr() of a value, fueled (element form used inside str() of
containers). String escaping inside quotes is not modelled; no claim
depends on it. -/
def pyReprF : Nat → Value → String
  | 0, _ => ""
  | fuel + 1, v =>
      match v with
      | .null => "None"
      | .bool true => "True"
      | .bool false => "False"
      | .int n => toString n
      | .str s => "'" ++ s ++ "'"
      | .list items =>
          "[" ++ String.intercalate ", " (items.map (fun x => pyReprF fuel x)) ++ "]"
      | .dict fields =>
          lbrace.toString ++
            String.intercalate ", "
              (fields.map (fun p => "'" ++ p.1 ++ "': " ++ pyReprF fuel p.2)) ++
            rbrace.toString

/-- Python repr() of a value. -/
def pyRepr (v : Value) : String := pyReprF (vsize v) v

/-- Python str() of a value, as used by replace_var in resolve_variables. -/
def pyStr : Value → String
  | .str s => s
  | v => pyRepr v

/-- Python str.isspace characters relevant to str.strip(). -/
def pyIsSpace (c : Char) : Bool :=
  c == ' ' || c == '\t' || c == '\n' || c == '\r' || c == Char.ofNat 11 || c == Char.ofNat 12

/-- Python str.strip(): drop whitespace from both ends. -/
def pyStrip (s : List Char) : List Char :=
  ((s.dropWhile pyIsSpace).reverse.dropWhile pyIsSpace).reverse

/-- Python path.split "." on character lists: always returns at least one
part, empty segments preserved. -/
def splitDotCh : List Char → List (List Char)
  | [] => [[]]
  | c :: rest =>
      if c = '.' then [] :: splitDotCh rest
      else
        match splitDotCh rest with
        | part :: parts => (c :: part) :: parts
        | [] => [[c]]

/-- The loop body of ExecutionContext._get_nested_value below the first
segment: descend into dicts via .get, turning a missing key or a stored
None into resolution failure. -/
def walkValue : Value → List String → Option Value
  | v, [] => some v
  | .dict d, p :: rest =>
      match alGet d p with
      | none => none
      | some .null => none
      | some v => walkValue v rest
  | _, _ :: _ => none

/-- ExecutionContext._get_nested_value: split the dotted path and descend the
variables dict; absent keys, stored None, and non-dict intermediates all
yield None. -/
def getNested (vars : List (String × Value)) (path : String) : Option Value :=
  walkValue (.dict vars) ((splitDotCh path.data).map String.mk)

/-- Match of the regex for a variable token at the head of the character
list: two left braces, a nonempty maximal run of non-right-brace characters
(the group), then two right braces.  Returns (group, remainder). -/
def tokenAt : List Char → Option (List Char × List Char)
  | c1 :: c2 :: rest =>
      if c1 = lbrace ∧ c2 = lbrace then
        match rest.dropWhile (fun c => !(c == rbrace)) with
        | d1 :: d2 :: rest2 =>
            if rest.takeWhile (fun c => !(c == rbrace)) = [] then none
            else if d1 = rbrace ∧ d2 = rbrace then
              some (rest.takeWhile (fun c => !(c == rbrace)), rest2)
            else none
        | _ => none
      else none
  | _ => none

/-- The re.sub scan of resolve_variables, fueled so that it is structurally
recursive (the fuel bounds the number of scanned positions; resolveChars
below supplies the length of the list, which always suffices since each
step consumes at least one character).  Walk the string left to right; at
each position try the token regex; on a match, replace by str(value) when
the stripped path resolves, else keep the whole token verbatim, and
continue after the match; otherwise emit the character. -/
def resolveCharsF (vars : List (String × Value)) : Nat → List Char → List Char
  | 0, l => l
  | _ + 1, [] => []
  | fuel + 1, c :: rest =>
      match tokenAt (c :: rest) with
      | some (interior, after) =>
          (match getNested vars (String.mk (pyStrip interior)) with
           | some v => (pyStr v).data
           | none => lbrace :: lbrace :: (interior ++ rbrace :: rbrace :: [])) ++
          resolveCharsF vars fuel after
      | none => c :: resolveCharsF vars fuel rest

/-- The re.sub scan of resolve_variables over a character list. -/
def resolveChars (vars : List (String × Value)) (l : List Char) : List Char :=
  resolveCharsF vars l.length l

/-- ExecutionContext.resolve_variables on a string. -/
def resolveVariables (vars : List (String × Value)) (text : String) : String :=
  String.mk (resolveChars vars text.data)

/-- NodeExecutor._resolve_config_variables, fueled (the fuel bounds dict
nesting depth; resolveConfigVal below supplies the vsize of the value,
which always suffices), expressed on a Value: strings are resolved, dict
values recurse with the same per-item dispatch, list elements are resolved
only when they are strings, everything else passes through. -/
def resolveConfigValF (vars : List (String × Value)) : Nat → Value → Value
  | 0, v => v
  | fuel + 1, v =>
      match v with
      | .str s => .str (resolveVariables vars s)
      | .dict d => .dict (d.map (fun p => (p.1, resolveConfigValF vars fuel p.2)))
      | .list items =>
          .list (items.map (fun it =>
            match it with
            | .str s => .str (resolveVariables vars s)
            | x => x))
      | x => x

/-- NodeExecutor._resolve_config_variables on a Value. -/
def resolveConfigVal (vars : List (String × Value)) (v : Value) : Value :=
  resolveConfigValF vars (vsize v) v


/-! ### Workflow definition and execution context (schemas/workflow.py, engine/context.py) -/

/-- FlowNode: id, type, and the config map (position and label carry no
behavior and are omitted). -/
structure FlowNode where
  id : String
  type : String
  config : List (String × Value)
deriving Repr

/-- FlowEdge: source and target node ids (edge id, handles and label carry
no behavior and are omitted). -/
structure FlowEdge where
  source : String
  target : String
deriving Repr

/-- WorkflowDefinition: ordered node and edge lists. -/
structure WorkflowDefinition where
  nodes : List FlowNode
  edges : List FlowEdge
deriving Repr

/-- Behavior of the installed observer callback.  The engine calls it
directly, with no try/except around the call sites in set_node_status,
add_log, start, complete and fail; raising models a callback that throws
on every invocation (as the service-installed status_callback does, since
its (node_id, status, data) signature never matches the single-dict call). -/
inductive CbKind where
  | noCallback : CbKind
  | benign : CbKind
  | raising : CbKind
deriving Repr, DecidableEq

/-- ExecutionContext state.  started_at and completed_at timestamps carry no
control-flow behavior and are omitted. -/
structure Ctx where
  executionId : String
  workflowId : String
  inputData : List (String × Value)
  cb : CbKind
  status : String
  error : Option String
  vars : List (String × Value)
  nodeOutputs : List (String × Value)
  nodeStatuses : List (String × String)
  logs : List (String × String)
deriving Repr

/-- ExecutionContext.__init__: status pending, variables seeded with input. -/
def initCtx (executionId workflowId : String) (inputData : List (String × Value))
    (cb : CbKind) : Ctx :=
  { executionId := executionId
    workflowId := workflowId
    inputData := inputData
    cb := cb
    status := "pending"
    error := none
    vars := [("input", .dict inputData)]
    nodeOutputs := []
    nodeStatuses := []
    logs := [] }

/-- ExecutionContext.set_node_status: record the status, then invoke the
callback with no guard — a raising callback propagates after the write. -/
def ctxSetNodeStatus (ctx : Ctx) (nodeId status : String) : Except String Unit × Ctx :=
  let ctx2 := { ctx with nodeStatuses := alSet ctx.nodeStatuses nodeId status }
  match ctx2.cb with
  | .raising => (.error "callback error", ctx2)
  | _ => (.ok (), ctx2)

/-- ExecutionContext.add_log: append the entry, then invoke the callback
with no guard — a raising callback propagates after the append. -/
def ctxAddLog (ctx : Ctx) (level message : String) : Except String Unit × Ctx :=
  let ctx2 := { ctx with logs := ctx.logs ++ [(level, message)] }
  match ctx2.cb with
  | .raising => (.error "callback error", ctx2)
  | _ => (.ok (), ctx2)

/-- ExecutionContext.set_node_output: store under node_outputs and under
variables nodes.<id>; no callback is involved. -/
def ctxSetNodeOutput (ctx : Ctx) (nodeId : String) (output : Value) : Ctx :=
  { ctx with
      nodeOutputs := alSet ctx.nodeOutputs nodeId output
      vars := alSet ctx.vars ("nodes." ++ nodeId) output }

/-- ExecutionContext.start: status running, a log entry, then a direct
status event to the callback. -/
def ctxStart (ctx : Ctx) : Except String Unit × Ctx :=
  let ctx1 := { ctx with status := "running" }
  match ctxAddLog ctx1 "info" "Workflow execution started" with
  | (.error e, c) => (.error e, c)
  | (.ok _, c) =>
      match c.cb with
      | .raising => (.error "callback error", c)
      | _ => (.ok (), c)

/-- ExecutionContext.complete: status completed, output stored under
variables output, a log entry, then a direct status event to the callback. -/
def ctxComplete (ctx : Ctx) (output : Value) : Except String Unit × Ctx :=
  let ctx1 := { ctx with
      status := "completed"
      vars := alSet ctx.vars "output" output }
  match ctxAddLog ctx1 "info" "Workflow execution completed" with
  | (.error e, c) => (.error e, c)
  | (.ok _, c) =>
      match c.cb with
      | .raising => (.error "callback error", c)
      | _ => (.ok (), c)

/-- ExecutionContext.fail: status failed and error recorded first, then a
log entry and a direct status event to the callback (either may raise). -/
def ctxFail (ctx : Ctx) (error : String) : Except String Unit × Ctx :=
  let ctx1 := { ctx with status := "failed", error := some error }
  match ctxAddLog ctx1 "error" ("Workflow execution failed: " ++ error) with
  | (.error e, c) => (.error e, c)
  | (.ok _, c) =>
      match c.cb with
      | .raising => (.error "callback error", c)
      | _ => (.ok (), c)

/-! ### Node executor run template (engine/nodes/base.py) -/

/-- NodeResult (schemas/node.py); execution_time carries no control flow
and is omitted. -/
structure NodeRes where
  nodeId : String
  status : String
  output : Value
  error : Option String
deriving Repr

/-- Outcome of an abstract executor execute call: the executors of this
repository either return a success NodeResult or raise. -/
inductive ExecOutcome where
  | ok (output : Value) : ExecOutcome
  | raiseErr (msg : String) : ExecOutcome

/-- Abstract validate_config: true to proceed; false models both a False
return and a raised NodeValidationError (identical control flow in run). -/
abbrev ValidateB := String → String → List (String × Value) → Bool

/-- Abstract execute: reads the node id, type, resolved config and the
context, and either produces the success output or raises. -/
abbrev ExecB := String → String → List (String × Value) → Ctx → ExecOutcome

/-- Resolve a config dict as _resolve_config_variables does. -/
def resolveConfigDict (vars : List (String × Value)) (config : List (String × Value)) :
    List (String × Value) :=
  match resolveConfigVal vars (.dict config) with
  | .dict d => d
  | _ => config

/-- The shared except-handler of NodeExecutor.run: mark failed, log the
error, return a failed NodeResult; a raising callback escapes run. -/
def runNodeHandler (nodeId errMsg : String) (ctx : Ctx) : Except String NodeRes × Ctx :=
  match ctxSetNodeStatus ctx nodeId "failed" with
  | (.error e, c) => (.error e, c)
  | (.ok _, c) =>
      match ctxAddLog c "error" errMsg with
      | (.error e, c2) => (.error e, c2)
      | (.ok _, c2) =>
          (.ok { nodeId := nodeId, status := "failed", output := .null, error := some errMsg }, c2)

/-- Execution trace instrumentation: context snapshots at each run entry,
and the ids whose execute was invoked, in order. -/
structure Instr where
  begins : List (String × Ctx)
  execs : List String

/-- WorkflowEngine._execute_node followed by NodeExecutor.run: registry
lookup, then the template — mark running, log started, validate, resolve
the config, execute, record status and output, log; every raised error is
routed through the handler. -/
def runNode (registry : List String) (validateB : ValidateB) (execB : ExecB)
    (node : FlowNode) (ctx0 : Ctx) (instr : Instr) :
    Except String NodeRes × Ctx × Instr :=
  if node.type ∈ registry then
    let instr := { instr with begins := instr.begins ++ [(node.id, ctx0)] }
    match ctxSetNodeStatus ctx0 node.id "running" with
    | (.error e, c) =>
        match runNodeHandler node.id ("Unexpected error: " ++ e) c with
        | (r, c2) => (r, c2, instr)
    | (.ok _, c1) =>
    match ctxAddLog c1 "info" ("Node " ++ node.id ++ " (" ++ node.type ++ ") started") with
    | (.error e, c) =>
        match runNodeHandler node.id ("Unexpected error: " ++ e) c with
        | (r, c2) => (r, c2, instr)
    | (.ok _, c2) =>
    if validateB node.id node.type node.config then
      let resolved := resolveConfigDict c2.vars node.config
      let instr := { instr with execs := instr.execs ++ [node.id] }
      match execB node.id node.type resolved c2 with
      | .raiseErr m =>
          match runNodeHandler node.id ("Execution failed: " ++ m) c2 with
          | (r, c3) => (r, c3, instr)
      | .ok output =>
          match ctxSetNodeStatus c2 node.id "success" with
          | (.error e, c) =>
              match runNodeHandler node.id ("Unexpected error: " ++ e) c with
              | (r, c3) => (r, c3, instr)
          | (.ok _, c3) =>
              let c4 := ctxSetNodeOutput c3 node.id output
              match ctxAddLog c4 "info" ("Node " ++ node.id ++ " completed successfully") with
              | (.error e, c) =>
                  match runNodeHandler node.id ("Unexpected error: " ++ e) c with
                  | (r, c5) => (r, c5, instr)
              | (.ok _, c5) =>
                  (.ok { nodeId := node.id, status := "success", output := output, error := none },
                    c5, instr)
    else
      match runNodeHandler node.id
          ("Configuration validation failed: Invalid configuration for node " ++ node.id) c2 with
      | (r, c3) => (r, c3, instr)
  else
    (.error ("No executor registered for node type: " ++ node.type), ctx0, instr)

/-! ### Workflow engine (engine/workflow_engine.py) -/

/-- WorkflowEngine._build_execution_graph: initialize every node id with an
empty successor list, then append each edge target to its source list
(defaultdict semantics: an unknown source gains a fresh key at the end). -/
def buildGraph (definition : WorkflowDefinition) : List (String × List String) :=
  let g := definition.nodes.foldl
    (fun g node => if (alGet g node.id).isSome then g else g ++ [(node.id, [])]) []
  definition.edges.foldl
    (fun g edge =>
      match alGet g edge.source with
      | some l => alSet g edge.source (l ++ [edge.target])
      | none => g ++ [(edge.source, [edge.target])]) g

/-- Result of one DFS visit: cycle found, fuel exhausted (never reached for
the fuel supplied by hasCycle, which exceeds the number of distinct nodes
and hence the recursion depth), or done with the grown visited set. -/
inductive DfsR where
  | cyc : DfsR
  | out : DfsR
  | ok (visited : List String) : DfsR

/-- Python set.add on the insertion-ordered visited list. -/
def setAdd (l : List String) (x : String) : List String :=
  if x ∈ l then l else l ++ [x]

/-- The for-loop body of dfs over the neighbor list: an unvisited neighbor
recurses through the supplied continuation, a visited neighbor still on the
recursion stack is a back edge (cycle). -/
def dfsVisitList (next : String → List String → List String → DfsR) :
    List String → List String → List String → DfsR
  | [], visited, _ => .ok visited
  | n :: rest, visited, stack =>
      if n ∈ visited then
        if n ∈ stack then .cyc else dfsVisitList next rest visited stack
      else
        match next n visited stack with
        | .ok visited2 => dfsVisitList next rest visited2 stack
        | r => r

/-- WorkflowEngine._has_cycle inner dfs: mark the node visited and on the
stack, visit all neighbors; returning without a cycle removes the node from
the stack (the caller keeps its own stack). -/
def dfsNode (g : List (String × List String)) : Nat → String → List String → List String → DfsR
  | 0, _, _, _ => .out
  | fuel + 1, u, visited, stack =>
      dfsVisitList (dfsNode g fuel) ((alGet g u).getD []) (setAdd visited u) (u :: stack)

/-- The top-level loop of _has_cycle over all graph keys.  Fuel exhaustion
is conservatively reported as a cycle; hasCycle supplies fuel larger than
the number of distinct nodes, so the dfs (whose depth grows the visited set
at every level) never exhausts it on the graphs built from definitions. -/
def hasCycleLoop (g : List (String × List String)) (fuel : Nat) :
    List String → List String → Bool
  | [], _ => false
  | node :: rest, visited =>
      if node ∈ visited then hasCycleLoop g fuel rest visited
      else
        match dfsNode g fuel node visited [] with
        | .cyc => true
        | .out => true
        | .ok visited2 => hasCycleLoop g fuel rest visited2

/-- WorkflowEngine._has_cycle. -/
def hasCycle (g : List (String × List String)) : Bool :=
  hasCycleLoop g ((g.foldr (fun p acc => p.1 :: (p.2 ++ acc)) []).length + 1) (alKeys g) []

/-- In-degree computation of _execute_graph: zero for every graph key, then
one increment per target occurrence (dict.get default 0 admits targets that
are not keys). -/
def initInDegree (g : List (String × List String)) : List (String × Int) :=
  g.foldl
    (fun acc p => p.2.foldl (fun acc t => alSet acc t ((alGet acc t).getD 0 + 1)) acc)
    (g.map (fun p => (p.1, (0 : Int))))

/-- WorkflowEngine._get_node_by_id. -/
def findNode (nodes : List FlowNode) (nid : String) : Option FlowNode :=
  nodes.find? (fun n => n.id == nid)

/-- The task-creation phase of one wave: look every ready id up in the node
list, raising at the first missing one (tasks created before it are never
awaited), and remember the last output-typed node seen. -/
def gatherTasks (nodes : List FlowNode) :
    List String → Option String → Except String (List FlowNode × Option String)
  | [], outId => .ok ([], outId)
  | nid :: rest, outId =>
      match findNode nodes nid with
      | none => .error ("Node not found: " ++ nid)
      | some node =>
          let outId2 := if node.type = "output" then some node.id else outId
          match gatherTasks nodes rest outId2 with
          | .ok (batch, outFinal) => .ok (node :: batch, outFinal)
          | .error e => .error e

/-- The awaited wave: run every batch member through its executor
(asyncio.gather with return_exceptions collects each result or exception;
the serialization is sound for the cross-wave facts proved here because the
engine awaits the whole wave before looking at any result). -/
def runBatch (registry : List String) (validateB : ValidateB) (execB : ExecB) :
    List FlowNode → Ctx → Instr → List (String × Except String NodeRes) × Ctx × Instr
  | [], ctx, instr => ([], ctx, instr)
  | node :: rest, ctx, instr =>
      match runNode registry validateB execB node ctx instr with
      | (res, ctx2, instr2) =>
          match runBatch registry validateB execB rest ctx2 instr2 with
          | (results, ctx3, instr3) => ((node.id, res) :: results, ctx3, instr3)

/-- Decrement the in-degree of each successor occurrence; a successor whose
in-degree reaches zero joins the ready list. -/
def decSuccessors (targets : List String) (inDeg : List (String × Int)) (ready : List String) :
    List (String × Int) × List String :=
  targets.foldl
    (fun acc t =>
      let k := (alGet acc.1 t).getD 0 - 1
      (alSet acc.1 t k, if k = 0 then acc.2 ++ [t] else acc.2))
    (inDeg, ready)

/-- Scheduler bookkeeping outside the context: in-degrees, the ready list,
the executed set (insertion-ordered, duplicate-free), the nodes whose
success results have been processed, and the last output node id. -/
structure SchedState where
  inDegree : List (String × Int)
  ready : List String
  executed : List String
  doneOk : List String
  outputNodeId : Option String

/-- The result-processing phase of one wave, in batch order: an exception
aborts the run, a failed result aborts the run (decrements applied for
earlier results remain), a success result is recorded and decrements its
successors. -/
def processResults (graph : List (String × List String)) :
    List (String × Except String NodeRes) → SchedState → Except String SchedState
  | [], st => .ok st
  | (nid, res) :: rest, st =>
      match res with
      | .error e => .error ("Node " ++ nid ++ " execution failed: " ++ e)
      | .ok r =>
          let executed2 := if nid ∈ st.executed then st.executed else st.executed ++ [nid]
          if r.status = "failed" then
            .error ("Node " ++ nid ++ " failed: " ++ r.error.getD "None")
          else
            let dr := decSuccessors ((alGet graph nid).getD []) st.inDegree st.ready
            processResults graph rest
              { st with
                  inDegree := dr.1
                  ready := dr.2
                  executed := executed2
                  doneOk := st.doneOk ++ [nid] }

/-- The while-loop of _execute_graph: drain the ready list into a wave,
create its tasks, await them all, process the results.  The fuel exceeds
the number of loop iterations actually possible (each iteration consumes a
nonempty ready list and every node becomes ready at most once); exhaustion
is modelled as an engine error so that it can never produce a completion. -/
def execLoop (registry : List String) (validateB : ValidateB) (execB : ExecB)
    (graph : List (String × List String)) (nodes : List FlowNode) :
    Nat → SchedState → Ctx → Instr → Except String SchedState × Ctx × Instr
  | 0, _, ctx, instr => (.error "scheduler fuel exhausted", ctx, instr)
  | fuel + 1, st, ctx, instr =>
      match st.ready with
      | [] => (.ok st, ctx, instr)
      | _ :: _ =>
          let batch := st.ready
          let st1 := { st with ready := [] }
          match gatherTasks nodes batch st1.outputNodeId with
          | .error e => (.error e, ctx, instr)
          | .ok (batchNodes, outId2) =>
              let st2 := { st1 with outputNodeId := outId2 }
              match runBatch registry validateB execB batchNodes ctx instr with
              | (results, ctx2, instr2) =>
                  match processResults graph results st2 with
                  | .error e => (.error e, ctx2, instr2)
                  | .ok st3 => execLoop registry validateB execB graph nodes fuel st3 ctx2 instr2

/-- WorkflowEngine._execute_graph: in-degrees, initial ready set, the wave
loop, the all-executed check, and the final output selection. -/
def executeGraph (registry : List String) (validateB : ValidateB) (execB : ExecB)
    (graph : List (String × List String)) (nodes : List FlowNode)
    (ctx : Ctx) (instr : Instr) : Except String Value × Ctx × Instr :=
  let inDeg := initInDegree graph
  let ready := inDeg.filterMap (fun p => if p.2 = 0 then some p.1 else none)
  match ready with
  | [] => (.error "No start nodes found in workflow", ctx, instr)
  | _ :: _ =>
      let st0 : SchedState :=
        { inDegree := inDeg, ready := ready, executed := [], doneOk := [], outputNodeId := none }
      match execLoop registry validateB execB graph nodes (inDeg.length + 1) st0 ctx instr with
      | (.error e, ctx2, instr2) => (.error e, ctx2, instr2)
      | (.ok st, ctx2, instr2) =>
          if st.executed.length = graph.length then
            match st.outputNodeId with
            | some oid => (.ok ((alGet ctx2.nodeOutputs oid).getD .null), ctx2, instr2)
            | none =>
                (.ok (.dict (st.executed.map
                  (fun nid => (nid, (alGet ctx2.nodeOutputs nid).getD .null)))), ctx2, instr2)
          else
            (.error "Not all nodes were executed", ctx2, instr2)

/-- Terminal result dict of WorkflowEngine.execute_workflow. -/
structure EngineRes where
  status : String
  output : Option Value
  error : Option String
deriving Repr

/-- The except-branch of execute_workflow: context.fail, then the failed
result dict; an exception raised inside fail (raising callback) escapes
execute_workflow itself. -/
def engineCatch (ctx : Ctx) (instr : Instr) (errorMsg : String) :
    Except String EngineRes × Ctx × Instr :=
  match ctxFail ctx errorMsg with
  | (.error e, c) => (.error e, c, instr)
  | (.ok _, c) => (.ok { status := "failed", output := none, error := some errorMsg }, c, instr)

/-- WorkflowEngine.execute_workflow: create the context, start it, build
and validate the graph, run it, complete the context; any exception is
caught, logged into the context via fail, and reported as a failed result. -/
def executeWorkflow (registry : List String) (validateB : ValidateB) (execB : ExecB)
    (executionId workflowId : String) (definition : WorkflowDefinition)
    (inputData : List (String × Value)) (cb : CbKind) :
    Except String EngineRes × Ctx × Instr :=
  let ctx := initCtx executionId workflowId inputData cb
  let instr : Instr := ⟨[], []⟩
  match ctxStart ctx with
  | (.error e, c) => engineCatch c instr ("Workflow execution failed: " ++ e)
  | (.ok _, c1) =>
      let graph := buildGraph definition
      if hasCycle graph then
        engineCatch c1 instr "Workflow execution failed: Workflow contains circular dependencies"
      else
        match executeGraph registry validateB execB graph definition.nodes c1 instr with
        | (.error e, c2, instr2) => engineCatch c2 instr2 ("Workflow execution failed: " ++ e)
        | (.ok output, c2, instr2) =>
            match ctxComplete c2 output with
            | (.error e, c3) => engineCatch c3 instr2 ("Workflow execution failed: " ++ e)
            | (.ok _, c3) =>
                (.ok { status := "completed", output := some output, error := none }, c3, instr2)

/-! ### Condition node executor (engine/nodes/condition_node.py) -/

/-- One entry of the conditions list (validated shape). -/
structure CondSpec where
  condField : String
  op : String
  value : Value
  branch : String
deriving Repr

/-- The success output dict of a matched condition. -/
def condOutput (vars : List (String × Value)) (i : Nat) (c : CondSpec) : Value :=
  .dict
    [("branch", .str c.branch),
     ("matched_condition", .int i),
     ("field", .str c.condField),
     ("actual_value", (getNested vars c.condField).getD .null),
     ("expected_value", c.value),
     ("operator", .str c.op)]

/-- The success output dict of the default branch. -/
def condDefaultOutput (db : String) : Value :=
  .dict [("branch", .str db), ("matched_condition", .null)]

/-- One condition evaluation: the field value from the context (missing
resolves to None) compared by the operator; none models a raised error. -/
def evalCond (vars : List (String × Value)) (c : CondSpec) : Option Bool :=
  applyOp c.op ((getNested vars c.condField).getD .null) c.value

/-- The evaluation loop of ConditionNodeExecutor.execute: conditions in
order; an evaluation error logs a warning (its index is collected) and
continues; the first true condition yields the success output; otherwise a
truthy default_branch yields the default output, else the node raises. -/
def condExecuteAux (vars : List (String × Value)) (defaultBranch : Option String) :
    List CondSpec → Nat → List Nat → Except String Value × List Nat
  | [], _, warns =>
      match defaultBranch with
      | some db =>
          if db.isEmpty then (.error "No conditions matched and no default branch specified", warns)
          else (.ok (condDefaultOutput db), warns)
      | none => (.error "No conditions matched and no default branch specified", warns)
  | c :: rest, i, warns =>
      match evalCond vars c with
      | none => condExecuteAux vars defaultBranch rest (i + 1) (warns ++ [i])
      | some true => (.ok (condOutput vars i c), warns)
      | some false => condExecuteAux vars defaultBranch rest (i + 1) warns

/-- ConditionNodeExecutor.execute on the resolved config pieces. -/
def condExecute (vars : List (String × Value)) (conds : List CondSpec)
    (defaultBranch : Option String) : Except String Value × List Nat :=
  condExecuteAux vars defaultBranch conds 0 []

/-! ### Execution service control operations (services/execution_service.py) -/

/-- The per-execution record of ExecutionService (the fields the control
operations read or write). -/
structure ExecRecord where
  status : String
  outputData : Option Value
  errorMessage : Option String
deriving Repr

/-- The manager state: records, control flags (paused, stopped), logs. -/
structure ServiceState where
  executions : List (String × ExecRecord)
  controls : List (String × (Bool × Bool))
  logs : List (String × String)
deriving Repr

/-- ExecutionService._update_status. -/
def svcUpdateStatus (st : ServiceState) (eid status : String) : ServiceState :=
  match alGet st.executions eid with
  | none => st
  | some r => { st with executions := alSet st.executions eid { r with status := status } }

/-- ExecutionService.stop_execution: unknown ids are refused; otherwise the
stopped flag is set, the background task is cancelled and awaited, and the
status is unconditionally updated to stopped — there is no check that the
run is still active. -/
def stopExecution (st : ServiceState) (eid : String) : Bool × ServiceState :=
  match alGet st.executions eid with
  | none => (false, st)
  | some _ =>
      let st1 :=
        match alGet st.controls eid with
        | some c => { st with controls := alSet st.controls eid (c.1, true) }
        | none => st
      let st2 := svcUpdateStatus st1 eid "stopped"
      (true, { st2 with logs := st2.logs ++ [(eid, "Execution stopped")] })

/-- ExecutionService.pause_execution: only valid from running. -/
def pauseExecution (st : ServiceState) (eid : String) : Bool × ServiceState :=
  match alGet st.executions eid with
  | none => (false, st)
  | some r =>
      if r.status = "running" then
        let st1 :=
          match alGet st.controls eid with
          | some c => { st with controls := alSet st.controls eid (true, c.2) }
          | none => st
        let st2 := svcUpdateStatus st1 eid "paused"
        (true, { st2 with logs := st2.logs ++ [(eid, "Execution paused")] })
      else (false, st)

/-- ExecutionService.resume_execution: only valid from paused. -/
def resumeExecution (st : ServiceState) (eid : String) : Bool × ServiceState :=
  match alGet st.executions eid with
  | none => (false, st)
  | some r =>
      if r.status = "paused" then
        let st1 :=
          match alGet st.controls eid with
          | some c => { st with controls := alSet st.controls eid (false, c.2) }
          | none => st
        let st2 := svcUpdateStatus st1 eid "running"
        (true, { st2 with logs := st2.logs ++ [(eid, "Execution resumed")] })
      else (false, st)

/-- The five built-in registered node types (ExecutionService._create_workflow_engine). -/
def builtinRegistry : List String := ["input", "llm", "condition", "transform", "output"]

/-! ### Predicates used by the claim statements -/

/-- Position n of l either starts no variable token, or starts one whose
stripped path does not resolve in vars (decidable, for concrete witnesses). -/
def absentAt (vars : List (String × Value)) (l : List Char) (n : Nat) : Bool :=
  match tokenAt (List.drop n l) with
  | some (i, _) => (getNested vars (String.mk (pyStrip i))).isNone
  | none => true

/-- One edge step of a definition: some edge goes from u to v. -/
def EdgeStep (edges : List FlowEdge) (u v : String) : Prop :=
  ∃ e ∈ edges, e.source = u ∧ e.target = v

/-- One adjacency step of a built graph. -/
def GraphStep (g : List (String × List String)) (u v : String) : Prop :=
  ∃ l, alGet g u = some l ∧ v ∈ l

/-- Nonempty path through a step relation. -/
inductive PathTC (r : String → String → Prop) : String → String → Prop where
  | single {u v : String} : r u v → PathTC r u v
  | cons {u v w : String} : r u v → PathTC r v w → PathTC r u w

/-- The edge relation of a definition contains a cycle. -/
def HasCycleIn (d : WorkflowDefinition) : Prop :=
  ∃ u, PathTC (EdgeStep d.edges) u u

/-- Every edge endpoint of the definition is the id of some node (decidable). -/
def endpointsKnown (d : WorkflowDefinition) : Bool :=
  d.edges.all (fun e =>
    d.nodes.any (fun n => n.id == e.source) && d.nodes.any (fun n => n.id == e.target))

/-- Finished-order list for the DFS argument: every member's graph
successors are members with strictly smaller index (a reverse topological
order of the finished nodes). -/
def GoodF (g : List (String × List String)) (F : List String) : Prop :=
  ∀ u ∈ F, ∀ v, GraphStep g u v → v ∈ F ∧ List.indexOf v F < List.indexOf u F

/-- Invariant of the dfs state: visited is exactly the finished list plus
the recursion stack, finished nodes are off the stack, and the finished
list is duplicate-free and successor-closed with decreasing indices. -/
def DfsInv (g : List (String × List String)) (visited stack F : List String) : Prop :=
  (∀ x, x ∈ visited ↔ x ∈ F ∨ x ∈ stack) ∧
  (∀ x ∈ F, x ∉ stack) ∧
  F.Nodup ∧ GoodF g F

/-- Node u is recorded as successful in the context, with its output
present both in node_outputs and under the nodes.<id> variable. -/
def CtxPredOk (c : Ctx) (u : String) : Prop :=
  alGet c.nodeStatuses u = some "success" ∧
  (alGet c.nodeOutputs u).isSome ∧
  (alGet c.vars ("nodes." ++ u)).isSome

/-- All predecessors of v (through the definition edges) are recorded in the
context as successful, with their output present both in node_outputs and
under the nodes.<id> variable. -/
def PredsDone (d : WorkflowDefinition) (c : Ctx) (v : String) : Prop :=
  ∀ e ∈ d.edges, e.target = v → CtxPredOk c e.source

/-- Total number of occurrences of v as a successor in the adjacency
lists of g (the number of edge occurrences into v). -/
def gIntoCount (g : List (String × List String)) (v : String) : Nat :=
  (g.map (fun p => p.2.count v)).sum

/-- Number of occurrences of v as a successor of processed nodes. -/
def doneCount (g : List (String × List String)) (doneList : List String) (v : String) : Nat :=
  (doneList.map (fun u => ((alGet g u).getD []).count v)).sum

/-- The scheduler loop invariant over the built graph g of definition d:
recorded run entries saw all their predecessors done; ready nodes have all
predecessors done, no status yet, and in-degree zero; processed nodes are
recorded successful; in-degrees equal incoming occurrences minus processed
occurrences; every incoming-edge target or graph key has an in-degree
entry; a positive in-degree node has not started; executed and processed
coincide; zero-in-degree nodes are executed or ready; executed nodes are
definition nodes. -/
def EngInv (d : WorkflowDefinition) (g : List (String × List String))
    (st : SchedState) (ctx : Ctx) (instr : Instr) : Prop :=
  (∀ p ∈ instr.begins, PredsDone d p.2 p.1) ∧
  (∀ v ∈ st.ready, PredsDone d ctx v ∧ alGet ctx.nodeStatuses v = none ∧
    alGet st.inDegree v = some 0) ∧
  st.ready.Nodup ∧
  (∀ u ∈ st.doneOk, CtxPredOk ctx u) ∧
  st.doneOk.Nodup ∧
  (∀ v k, alGet st.inDegree v = some k →
    k = (gIntoCount g v : Int) - (doneCount g st.doneOk v : Int)) ∧
  (∀ v, (0 < gIntoCount g v ∨ v ∈ alKeys g) → (alGet st.inDegree v).isSome) ∧
  (∀ v k, alGet st.inDegree v = some k → 0 < k → alGet ctx.nodeStatuses v = none) ∧
  (∀ x, x ∈ st.executed ↔ x ∈ st.doneOk) ∧
  st.executed.Nodup ∧
  (∀ v, alGet st.inDegree v = some 0 → v ∈ st.executed ∨ v ∈ st.ready) ∧
  (∀ x ∈ st.executed, ∃ n ∈ d.nodes, n.id = x)




/-- Mid-wave variant of the scheduler invariant: the zero-in-degree coverage
clause also admits the pending ids of the wave whose results are still being
processed; with no pending ids it is exactly EngInv. -/
def EngInvAux (d : WorkflowDefinition) (g : List (String × List String))
    (st : SchedState) (ctx : Ctx) (instr : Instr) (pend : List String) : Prop :=
  (∀ p ∈ instr.begins, PredsDone d p.2 p.1) ∧
  (∀ v ∈ st.ready, PredsDone d ctx v ∧ alGet ctx.nodeStatuses v = none ∧
    alGet st.inDegree v = some 0) ∧
  st.ready.Nodup ∧
  (∀ u ∈ st.doneOk, CtxPredOk ctx u) ∧
  st.doneOk.Nodup ∧
  (∀ v k, alGet st.inDegree v = some k →
    k = (gIntoCount g v : Int) - (doneCount g st.doneOk v : Int)) ∧
  (∀ v, (0 < gIntoCount g v ∨ v ∈ alKeys g) → (alGet st.inDegree v).isSome) ∧
  (∀ v k, alGet st.inDegree v = some k → 0 < k → alGet ctx.nodeStatuses v = none) ∧
  (∀ x, x ∈ st.executed ↔ x ∈ st.doneOk) ∧
  st.executed.Nodup ∧
  (∀ v, alGet st.inDegree v = some 0 → v ∈ st.executed ∨ v ∈ st.ready ∨ v ∈ pend) ∧
  (∀ x ∈ st.executed, ∃ n ∈ d.nodes, n.id = x)

/-- A validator that accepts every configuration. -/
def allValid : ValidateB := fun _ _ _ => true

/-- An executor that succeeds on every node, returning the node id. -/
def echoExec : ExecB := fun nid _ _ _ => .ok (.str nid)

/-- Two-node chain a → b used to exercise the dispatch-order property. -/
def chainDef : WorkflowDefinition :=
  { nodes := [{ id := "a", type := "input", config := [] },
              { id := "b", type := "llm", config := [] }]
    edges := [{ source := "a", target := "b" }] }

/-- A run of the two-node chain with a benign callback. -/
def chainRun : Except String EngineRes × Ctx × Instr :=
  executeWorkflow builtinRegistry allValid echoExec "e1" "w1" chainDef [] .benign

/-- The run-entry snapshot of the second node dispatched in chainRun. -/
def chainSnap : String × Ctx :=
  chainRun.2.2.begins.getD 1 ("", initCtx "" "" [] .noCallback)

/-- Definition with an edge whose target is not the id of any node. -/
def ghostDef : WorkflowDefinition :=
  { nodes := [{ id := "a", type := "input", config := [] }]
    edges := [{ source := "a", target := "ghost" }] }

/-- A run of the ghost-target definition with a benign callback. -/
def ghostRun : Except String EngineRes × Ctx × Instr :=
  executeWorkflow builtinRegistry allValid echoExec "e2" "w2" ghostDef [] .benign

/-! ## Theorems -/

theorem alGet_alSet_self {α : Type} (l : List (String × α)) (k : String) (v : α) :
    alGet (alSet l k v) k = some v := by
  induction l with
  | nil => simp [alSet, alGet]
  | cons hd tl ih =>
      obtain ⟨k2, w⟩ := hd
      by_cases h : k2 = k
      · simp [alSet, alGet, h]
      · simp [alSet, alGet, h, ih]

theorem alGet_alSet_ne {α : Type} (l : List (String × α)) (k k2 : String) (v : α)
    (h : k ≠ k2) : alGet (alSet l k v) k2 = alGet l k2 := by
  induction l with
  | nil => simp [alSet, alGet, h]
  | cons hd tl ih =>
      obtain ⟨k3, w⟩ := hd
      by_cases h3 : k3 = k
      · subst h3
        simp [alSet, alGet, h]
      · simp [alSet, alGet, h3, ih]

theorem tokenAt_length : ∀ {s : List Char} {i a : List Char},
    tokenAt s = some (i, a) → a.length < s.length := by
  intro s i a h
  match s with
  | [] => simp [tokenAt] at h
  | [c] => simp [tokenAt] at h
  | c1 :: c2 :: rest =>
      simp only [tokenAt] at h
      split at h
      case isFalse => exact absurd h (by simp)
      case isTrue hb =>
        have hsplit : rest.takeWhile (fun c => !(c == rbrace)) ++
            rest.dropWhile (fun c => !(c == rbrace)) = rest :=
          List.takeWhile_append_dropWhile _ _
        split at h
        case h_2 => exact absurd h (by simp)
        case h_1 d1 d2 rest2 hdrop =>
          split at h
          case isTrue => exact absurd h (by simp)
          case isFalse =>
            split at h
            case isFalse => exact absurd h (by simp)
            case isTrue =>
              have ha : a = rest2 := by
                have h2 := h
                simp at h2
                exact h2.2.symm
              subst ha
              have hlen := congrArg List.length hsplit
              rw [hdrop] at hlen
              simp only [List.length_append, List.length_cons] at hlen
              simp only [List.length_cons]
              omega


/-! ### Variable resolver lemmas -/

theorem stringMk_data (s : String) : String.mk s.data = s := rfl

theorem resolveCharsF_nil (vars : List (String × Value)) (fuel : Nat) :
    resolveCharsF vars fuel [] = [] := by
  cases fuel <;> rfl

theorem takeWhile_append_rbrace (p tl : List Char) (h : ∀ c ∈ p, c ≠ rbrace) :
    (p ++ rbrace :: tl).takeWhile (fun c => !(c == rbrace)) = p ∧
    (p ++ rbrace :: tl).dropWhile (fun c => !(c == rbrace)) = rbrace :: tl := by
  induction p with
  | nil => constructor <;> simp [List.takeWhile_cons, List.dropWhile_cons]
  | cons c rest ih =>
      have hc : c ≠ rbrace := h c (by simp)
      have ih2 := ih (fun x hx => h x (by simp [hx]))
      constructor
      · simp [List.takeWhile_cons, hc, ih2.1]
      · simp [List.dropWhile_cons, hc, ih2.2]

theorem tokenAt_token (p tl : List Char) (hne : p ≠ []) (h : ∀ c ∈ p, c ≠ rbrace) :
    tokenAt (lbrace :: lbrace :: (p ++ rbrace :: rbrace :: tl)) = some (p, tl) := by
  have hp := takeWhile_append_rbrace p (rbrace :: tl) h
  simp only [tokenAt, hp.1, hp.2]
  simp [hne]

theorem tokenAt_decomp : ∀ {l i a : List Char}, tokenAt l = some (i, a) →
    l = lbrace :: lbrace :: (i ++ rbrace :: rbrace :: a) ∧ i ≠ [] ∧ ∀ c ∈ i, c ≠ rbrace := by
  intro l i a h
  match l with
  | [] => simp [tokenAt] at h
  | [c] => simp [tokenAt] at h
  | c1 :: c2 :: rest =>
      simp only [tokenAt] at h
      split at h
      case isFalse => exact absurd h (by simp)
      case isTrue hb =>
        have hsplit : rest.takeWhile (fun c => !(c == rbrace)) ++
            rest.dropWhile (fun c => !(c == rbrace)) = rest :=
          List.takeWhile_append_dropWhile _ _
        split at h
        case h_2 => exact absurd h (by simp)
        case h_1 d1 d2 rest2 hdrop =>
          split at h
          case isTrue => exact absurd h (by simp)
          case isFalse hne2 =>
            split at h
            case isFalse => exact absurd h (by simp)
            case isTrue hd =>
              have h2 : rest.takeWhile (fun c => !(c == rbrace)) = i ∧ rest2 = a := by
                simp at h
                exact ⟨h.1, h.2⟩
              refine ⟨?_, ?_, ?_⟩
              · rw [hb.1, hb.2, ← hsplit, hdrop, h2.1, h2.2, hd.1, hd.2]
              · rw [← h2.1]
                exact hne2
              · intro c hc
                rw [← h2.1] at hc
                have hmem := List.mem_takeWhile_imp hc
                simpa using hmem

/-- A single absent token resolves to itself (the shared core of the C4 and
C10 verbatim statements). -/
theorem resolveChars_token_absent (vars : List (String × Value)) (p : List Char)
    (hne : p ≠ []) (hnb : ∀ c ∈ p, c ≠ rbrace)
    (habs : getNested vars (String.mk (pyStrip p)) = none) :
    resolveChars vars (lbrace :: lbrace :: (p ++ rbrace :: rbrace :: [])) =
      lbrace :: lbrace :: (p ++ rbrace :: rbrace :: []) := by
  unfold resolveChars
  have hlen : (lbrace :: lbrace :: (p ++ rbrace :: rbrace :: [])).length =
      p.length + 3 + 1 := by simp
  rw [hlen]
  simp only [resolveCharsF, tokenAt_token p [] hne hnb, habs]
  simp

theorem resolveCharsF_id_of_noToken (vars : List (String × Value)) :
    ∀ (fuel : Nat) (l : List Char), (∀ n, tokenAt (List.drop n l) = none) →
      resolveCharsF vars fuel l = l := by
  intro fuel
  induction fuel with
  | zero => intro l _; rfl
  | succ fuel ih =>
      intro l h
      match l with
      | [] => rfl
      | c :: rest =>
          have h0 := h 0
          simp only [List.drop_zero] at h0
          simp only [resolveCharsF, h0]
          rw [ih rest (fun n => by have hn := h (n + 1); simpa using hn)]

theorem resolveCharsF_id_of_absent (vars : List (String × Value)) :
    ∀ (fuel : Nat) (l : List Char), (∀ n, absentAt vars l n = true) →
      resolveCharsF vars fuel l = l := by
  intro fuel
  induction fuel with
  | zero => intro l _; rfl
  | succ fuel ih =>
      intro l h
      match l with
      | [] => rfl
      | c :: rest =>
          cases htok : tokenAt (c :: rest) with
          | none =>
              simp only [resolveCharsF, htok]
              rw [ih rest (fun n => by
                have hn := h (n + 1)
                simpa [absentAt] using hn)]
          | some pr =>
              obtain ⟨i, after⟩ := pr
              have habs : getNested vars (String.mk (pyStrip i)) = none := by
                have h0 := h 0
                simp only [absentAt, List.drop_zero, htok, Option.isNone_iff_eq_none] at h0
                exact h0
              have hdec := tokenAt_decomp htok
              have hsplit : c :: rest = (lbrace :: lbrace :: (i ++ [rbrace, rbrace])) ++ after := by
                rw [hdec.1]
                simp
              have hshift : ∀ n, absentAt vars after n = true := by
                intro n
                have hdrop : List.drop (i.length + 4 + n) (c :: rest) = List.drop n after := by
                  rw [hsplit]
                  have hlen : (lbrace :: lbrace :: (i ++ [rbrace, rbrace])).length =
                      i.length + 4 := by simp
                  rw [← hlen]
                  exact List.drop_append n
                have hn := h (i.length + 4 + n)
                simpa [absentAt, hdrop] using hn
              simp only [resolveCharsF, htok, habs]
              rw [ih after hshift]
              rw [hsplit]

theorem walkValue_ne_null : ∀ (parts : List String) (v w : Value),
    walkValue v parts = some w → w = Value.null → v = Value.null := by
  intro parts
  induction parts with
  | nil =>
      intro v w h hw
      simp only [walkValue, Option.some.injEq] at h
      rw [h, hw]
  | cons p rest ih =>
      intro v w h hw
      match v with
      | .null => rfl
      | .bool b => simp [walkValue] at h
      | .int n => simp [walkValue] at h
      | .str s => simp [walkValue] at h
      | .list items => simp [walkValue] at h
      | .dict d =>
          simp only [walkValue] at h
          cases hget : alGet d p with
          | none => rw [hget] at h; simp at h
          | some x =>
              rw [hget] at h
              match x with
              | .null => simp at h
              | .bool b => exact absurd (ih _ _ h hw) (by simp)
              | .int n => exact absurd (ih _ _ h hw) (by simp)
              | .str s => exact absurd (ih _ _ h hw) (by simp)
              | .list items => exact absurd (ih _ _ h hw) (by simp)
              | .dict d2 => exact absurd (ih _ _ h hw) (by simp)

theorem getNested_ne_null (vars : List (String × Value)) (path : String) :
    getNested vars path ≠ some Value.null := by
  intro h
  unfold getNested at h
  have hv := walkValue_ne_null _ _ _ h rfl
  simp at hv

/-! ### Claims C4, C5, C10: variable resolution -/

/-- C4: a variable token whose stripped path is absent in the variables map
is left in the output verbatim (stated for the token shape the regex
matches: a nonempty group without right braces); in particular, resolving
"Hello {{input.user.name}} — {{missing}}" against variables holding
input.user.name = "Alice" yields exactly "Hello Alice — {{missing}}". -/
theorem claim_C4_absent_token_verbatim :
    (∀ (vars : List (String × Value)) (p : List Char), p ≠ [] → (∀ c ∈ p, c ≠ rbrace) →
      getNested vars (String.mk (pyStrip p)) = none →
      resolveChars vars (lbrace :: lbrace :: (p ++ rbrace :: rbrace :: [])) =
        lbrace :: lbrace :: (p ++ rbrace :: rbrace :: [])) ∧
    resolveVariables [("input", .dict [("user", .dict [("name", .str "Alice")])])]
        "Hello \x7b\x7binput.user.name\x7d\x7d — \x7b\x7bmissing\x7d\x7d" =
      "Hello Alice — \x7b\x7bmissing\x7d\x7d" := by
  constructor
  · intro vars p hne hnb habs
    exact resolveChars_token_absent vars p hne hnb habs
  · rfl

/-- Witness for C4 at a concrete absent path. -/
theorem claim_C4_absent_token_verbatim_witness :
    resolveChars [] (lbrace :: lbrace :: ("missing".data ++ rbrace :: rbrace :: [])) =
      lbrace :: lbrace :: ("missing".data ++ rbrace :: rbrace :: []) :=
  claim_C4_absent_token_verbatim.1 [] "missing".data (by decide) (by decide) (by rfl)

/-- C5 as written is false: with variables a = "{{b}}" and b = "x",
resolving "{{a}}" once gives "{{b}}" but resolving the result again gives
"x", so resolve is not idempotent on every string and variables map. -/
theorem claim_C5_counterexample :
    ¬ (∀ (vars : List (String × Value)) (s : String),
        resolveVariables vars (resolveVariables vars s) = resolveVariables vars s) := by
  intro h
  have h2 := h [("a", .str "\x7b\x7bb\x7d\x7d"), ("b", .str "x")] "\x7b\x7ba\x7d\x7d"
  revert h2
  decide

/-- C5 amended: a string in which no position starts a variable token is a
fixed point of resolution; and a string all of whose tokens have absent
paths is also a fixed point, hence resolving such a string twice equals
resolving it once.  Full idempotence fails when a stored value itself
contains a resolvable token (see the counterexample). -/
theorem claim_C5_amended (vars : List (String × Value)) (text : String) :
    ((∀ n, n < text.data.length → tokenAt (List.drop n text.data) = none) →
      resolveVariables vars text = text) ∧
    ((∀ n, n < text.data.length → absentAt vars text.data n = true) →
      resolveVariables vars text = text ∧
      resolveVariables vars (resolveVariables vars text) = resolveVariables vars text) := by
  constructor
  · intro h
    unfold resolveVariables resolveChars
    rw [resolveCharsF_id_of_noToken vars _ _ ?_, stringMk_data]
    intro n
    by_cases hn : n < text.data.length
    · exact h n hn
    · rw [List.drop_eq_nil_of_le (by omega)]
      rfl
  · intro h
    have hid : resolveVariables vars text = text := by
      unfold resolveVariables resolveChars
      rw [resolveCharsF_id_of_absent vars _ _ ?_, stringMk_data]
      intro n
      by_cases hn : n < text.data.length
      · exact h n hn
      · unfold absentAt
        rw [List.drop_eq_nil_of_le (by omega)]
        rfl
    exact ⟨hid, by rw [hid, hid]⟩

/-- Witness for C5 amended at concrete inputs: a token-free string and a
string whose only token has an absent path are both fixed points. -/
theorem claim_C5_amended_witness :
    resolveVariables [("a", .int 1)] "plain text" = "plain text" ∧
    resolveVariables [("a", .int 1)] "\x7b\x7bmissing\x7d\x7d!" = "\x7b\x7bmissing\x7d\x7d!" :=
  ⟨(claim_C5_amended [("a", .int 1)] "plain text").1 (by decide),
   ((claim_C5_amended [("a", .int 1)] "\x7b\x7bmissing\x7d\x7d!").2 (by decide)).1⟩

/-- C10: resolution of a path yields nothing both when the key is missing
and when the stored value at (or along) the path is None, so a verbatim
token cannot distinguish the two; resolution never yields a stored None
(so None is never stringified), and a token over such a path stays
verbatim. -/
theorem claim_C10_null_handling :
    (∀ (d : List (String × Value)) (p : String) (rest : List String),
      alGet d p = none → walkValue (.dict d) (p :: rest) = none) ∧
    (∀ (d : List (String × Value)) (p : String) (rest : List String),
      alGet d p = some .null → walkValue (.dict d) (p :: rest) = none) ∧
    (∀ (vars : List (String × Value)) (path : String), getNested vars path ≠ some .null) ∧
    (∀ (vars : List (String × Value)) (p : List Char), p ≠ [] → (∀ c ∈ p, c ≠ rbrace) →
      getNested vars (String.mk (pyStrip p)) = none →
      resolveVariables vars (String.mk (lbrace :: lbrace :: (p ++ rbrace :: rbrace :: []))) =
        String.mk (lbrace :: lbrace :: (p ++ rbrace :: rbrace :: []))) := by
  refine ⟨?_, ?_, ?_, ?_⟩
  · intro d p rest h
    simp [walkValue, h]
  · intro d p rest h
    simp [walkValue, h]
  · intro vars path
    exact getNested_ne_null vars path
  · intro vars p hne hnb habs
    unfold resolveVariables
    rw [show (String.mk (lbrace :: lbrace :: (p ++ rbrace :: rbrace :: []))).data =
        lbrace :: lbrace :: (p ++ rbrace :: rbrace :: []) from rfl]
    rw [resolveChars_token_absent vars p hne hnb habs]

/-- Witness for C10 at concrete inputs: a missing key and a stored None are
both unresolved, getNested never returns None, and the token stays. -/
theorem claim_C10_null_handling_witness :
    walkValue (.dict [("k", .int 1)]) ("q" :: []) = none ∧
    walkValue (.dict [("k", .null)]) ("k" :: []) = none ∧
    getNested [("k", .null)] "k" ≠ some Value.null ∧
    resolveVariables [("k", .null)] (String.mk (lbrace :: lbrace :: ("k".data ++ rbrace :: rbrace :: []))) =
      String.mk (lbrace :: lbrace :: ("k".data ++ rbrace :: rbrace :: [])) :=
  ⟨claim_C10_null_handling.1 [("k", .int 1)] "q" [] (by rfl),
   claim_C10_null_handling.2.1 [("k", .null)] "k" [] (by rfl),
   claim_C10_null_handling.2.2.1 [("k", .null)] "k",
   claim_C10_null_handling.2.2.2 [("k", .null)] "k".data (by decide) (by decide) (by rfl)⟩

/-! ### Claim C6: condition node evaluation -/

theorem findIdx?_ge {α : Type} (p : α → Bool) :
    ∀ (l : List α) (i0 i : Nat), List.findIdx? p l i0 = some i → i0 ≤ i := by
  intro l
  induction l with
  | nil => intro i0 i h; simp [List.findIdx?] at h
  | cons x xs ih =>
      intro i0 i h
      rw [List.findIdx?_cons] at h
      split at h
      · simp at h
        omega
      · have := ih (i0 + 1) i h
        omega

theorem mem_enumFrom_ge {α : Type} :
    ∀ (l : List α) (n : Nat) (q : Nat × α), q ∈ List.enumFrom n l → n ≤ q.1 := by
  intro l
  induction l with
  | nil => intro n q h; simp [List.enumFrom] at h
  | cons x xs ih =>
      intro n q h
      rw [List.enumFrom_cons] at h
      cases h with
      | head => simp
      | tail _ hm =>
          have := ih (n + 1) q hm
          omega

theorem condExecuteAux_found (vars : List (String × Value)) (db : Option String) :
    ∀ (conds : List CondSpec) (i0 : Nat) (acc : List Nat) (i : Nat),
      List.findIdx? (fun c => evalCond vars c == some true) conds i0 = some i →
      ∃ c, conds.get? (i - i0) = some c ∧
        condExecuteAux vars db conds i0 acc =
          (.ok (condOutput vars i c),
           acc ++ ((List.enumFrom i0 conds).filter
               (fun q => decide (q.1 < i) && (evalCond vars q.2 == none))).map Prod.fst) := by
  intro conds
  induction conds with
  | nil => intro i0 acc i h; simp [List.findIdx?] at h
  | cons c rest ih =>
      intro i0 acc i h
      rw [List.findIdx?_cons] at h
      split at h
      case isTrue hp =>
        simp only [Option.some.injEq] at h
        subst h
        refine ⟨c, by simp, ?_⟩
        have hev : evalCond vars c = some true := by
          simpa using hp
        simp only [condExecuteAux, hev, List.enumFrom_cons]
        rw [List.filter_cons]
        have hrest : (List.enumFrom (i0 + 1) rest).filter
            (fun q => decide (q.1 < i0) && (evalCond vars q.2 == none)) = [] := by
          rw [List.filter_eq_nil_iff]
          intro q hq
          have := mem_enumFrom_ge rest (i0 + 1) q hq
          simp [show ¬ (q.1 < i0) by omega]
        simp [hrest]
      case isFalse hp =>
        have hge := findIdx?_ge _ rest (i0 + 1) i h
        have hsub : i - i0 = (i - (i0 + 1)) + 1 := by omega
        cases hev : evalCond vars c with
        | none =>
            obtain ⟨c2, hc2, heq⟩ := ih (i0 + 1) (acc ++ [i0]) i h
            refine ⟨c2, ?_, ?_⟩
            · rw [hsub, List.get?_cons_succ]
              exact hc2
            · simp only [condExecuteAux, hev]
              rw [heq, List.enumFrom_cons, List.filter_cons]
              have hcond : (decide (i0 < i) && (evalCond vars c == none)) = true := by
                simp [hev]
                omega
              simp [hcond]
        | some b =>
            cases b with
            | true => exact absurd (by simp [hev]) hp
            | false =>
                obtain ⟨c2, hc2, heq⟩ := ih (i0 + 1) acc i h
                refine ⟨c2, ?_, ?_⟩
                · rw [hsub, List.get?_cons_succ]
                  exact hc2
                · simp only [condExecuteAux, hev]
                  rw [heq, List.enumFrom_cons, List.filter_cons]
                  have hcond : (decide (i0 < i) && (evalCond vars c == none)) = false := by
                    simp [hev]
                  simp [hcond]

theorem condExecuteAux_nomatch (vars : List (String × Value)) (db : Option String) :
    ∀ (conds : List CondSpec) (i0 : Nat) (acc : List Nat),
      List.findIdx? (fun c => evalCond vars c == some true) conds i0 = none →
      condExecuteAux vars db conds i0 acc =
        ((match db with
          | some s =>
              if s.isEmpty then
                Except.error "No conditions matched and no default branch specified"
              else Except.ok (condDefaultOutput s)
          | none => Except.error "No conditions matched and no default branch specified"),
         acc ++ ((List.enumFrom i0 conds).filter
             (fun q => evalCond vars q.2 == none)).map Prod.fst) := by
  intro conds
  induction conds with
  | nil =>
      intro i0 acc _
      cases db with
      | none => simp [condExecuteAux, List.enumFrom]
      | some s =>
          by_cases hs : s.isEmpty <;> simp [condExecuteAux, List.enumFrom, hs]
  | cons c rest ih =>
      intro i0 acc h
      rw [List.findIdx?_cons] at h
      split at h
      case isTrue => simp at h
      case isFalse hp =>
        cases hev : evalCond vars c with
        | none =>
            simp only [condExecuteAux, hev]
            rw [ih (i0 + 1) (acc ++ [i0]) h, List.enumFrom_cons, List.filter_cons]
            simp [hev]
        | some b =>
            cases b with
            | true => exact absurd (by simp [hev]) hp
            | false =>
                simp only [condExecuteAux, hev]
                rw [ih (i0 + 1) acc h, List.enumFrom_cons, List.filter_cons]
                simp [hev]

/-- C6: conditions are evaluated in list order; the first condition whose
operator holds yields the success output (branch, matched index, field,
actual, expected, operator); conditions whose evaluation raises are skipped
and their indices collected as warnings; if none matches, a set
default_branch yields its output with matched_condition None, and an unset
default_branch makes the node raise. -/
theorem claim_C6_condition_evaluation (vars : List (String × Value))
    (conds : List CondSpec) (db : Option String) :
    (∀ (i : Nat) (c : CondSpec),
      List.findIdx? (fun c => evalCond vars c == some true) conds = some i →
      conds.get? i = some c →
      condExecute vars conds db =
        (.ok (condOutput vars i c),
         ((List.enumFrom 0 conds).filter
             (fun q => decide (q.1 < i) && (evalCond vars q.2 == none))).map Prod.fst)) ∧
    (List.findIdx? (fun c => evalCond vars c == some true) conds = none →
      (∀ s, db = some s → ¬ s.isEmpty →
        condExecute vars conds db =
          (.ok (condDefaultOutput s),
           ((List.enumFrom 0 conds).filter
               (fun q => evalCond vars q.2 == none)).map Prod.fst)) ∧
      (db = none →
        condExecute vars conds db =
          (.error "No conditions matched and no default branch specified",
           ((List.enumFrom 0 conds).filter
               (fun q => evalCond vars q.2 == none)).map Prod.fst))) := by
  constructor
  · intro i c hf hc
    obtain ⟨c2, hc2, heq⟩ := condExecuteAux_found vars db conds 0 [] i hf
    simp only [Nat.sub_zero] at hc2
    rw [hc] at hc2
    obtain rfl : c2 = c := by simpa using hc2.symm
    unfold condExecute
    rw [heq]
    simp
  · intro hf
    constructor
    · intro s hdb hs
      unfold condExecute
      rw [condExecuteAux_nomatch vars db conds 0 [] hf, hdb]
      simp [hs]
    · intro hdb
      unfold condExecute
      rw [condExecuteAux_nomatch vars db conds 0 [] hf, hdb]
      simp

/-- Witness for C6 at the spec scenario: age 20 against gte-18-adult /
lt-18-minor selects branch adult with matched_condition 0 and no warnings. -/
theorem claim_C6_condition_evaluation_witness :
    condExecute [("input", .dict [("age", .int 20)])]
        [⟨"input.age", "gte", .int 18, "adult"⟩, ⟨"input.age", "lt", .int 18, "minor"⟩] none =
      (.ok (condOutput [("input", .dict [("age", .int 20)])] 0
        ⟨"input.age", "gte", .int 18, "adult"⟩), []) := by
  have h := (claim_C6_condition_evaluation [("input", .dict [("age", .int 20)])]
      [⟨"input.age", "gte", .int 18, "adult"⟩, ⟨"input.age", "lt", .int 18, "minor"⟩] none).1
      0 ⟨"input.age", "gte", .int 18, "adult"⟩ (by rfl) (by rfl)
  simpa using h

/-! ### Claim C9: run state control operations -/

/-- C9 as written is false at a concrete state: stop on an execution whose
recorded status is already completed succeeds and rewrites the status to
stopped. -/
theorem claim_C9_counterexample :
    (stopExecution
        { executions := [("e1", { status := "completed", outputData := none, errorMessage := none })],
          controls := [("e1", (false, false))], logs := [] } "e1").1 = true ∧
    alGet (stopExecution
        { executions := [("e1", { status := "completed", outputData := none, errorMessage := none })],
          controls := [("e1", (false, false))], logs := [] } "e1").2.executions "e1" =
      some { status := "stopped", outputData := none, errorMessage := none } :=
  ⟨rfl, rfl⟩

/-- C9 amended: stop refuses only unknown execution ids; for every known
execution it reports success and sets the recorded status to stopped
regardless of the current status — including the terminal statuses
completed and failed.  The pause and resume guards do hold: pause is
refused unless the status is running, resume unless it is paused. -/
theorem claim_C9_amended (st : ServiceState) (eid : String) :
    (alGet st.executions eid = none → stopExecution st eid = (false, st)) ∧
    (∀ r, alGet st.executions eid = some r →
      (stopExecution st eid).1 = true ∧
      alGet (stopExecution st eid).2.executions eid = some { r with status := "stopped" }) ∧
    (∀ r, alGet st.executions eid = some r → r.status ≠ "running" →
      pauseExecution st eid = (false, st)) ∧
    (∀ r, alGet st.executions eid = some r → r.status ≠ "paused" →
      resumeExecution st eid = (false, st)) := by
  refine ⟨?_, ?_, ?_, ?_⟩
  · intro h
    simp [stopExecution, h]
  · intro r h
    constructor
    · simp [stopExecution, h]
    · simp only [stopExecution, h]
      cases hc : alGet st.controls eid <;>
        simp [svcUpdateStatus, h, alGet_alSet_self]
  · intro r h hs
    simp [pauseExecution, h, hs]
  · intro r h hs
    simp [resumeExecution, h, hs]

/-- Witness for C9 amended at concrete states: unknown id refused; a
running execution is stopped; pause refused from pending. -/
theorem claim_C9_amended_witness :
    stopExecution { executions := [], controls := [], logs := [] } "zz" =
      (false, { executions := [], controls := [], logs := [] }) ∧
    alGet (stopExecution
        { executions := [("e1", { status := "running", outputData := none, errorMessage := none })],
          controls := [("e1", (false, false))], logs := [] } "e1").2.executions "e1" =
      some { status := "stopped", outputData := none, errorMessage := none } ∧
    pauseExecution
        { executions := [("e2", { status := "pending", outputData := none, errorMessage := none })],
          controls := [("e2", (false, false))], logs := [] } "e2" =
      (false, { executions := [("e2", { status := "pending", outputData := none, errorMessage := none })],
                controls := [("e2", (false, false))], logs := [] }) :=
  ⟨(claim_C9_amended { executions := [], controls := [], logs := [] } "zz").1 (by rfl),
   ((claim_C9_amended
      { executions := [("e1", { status := "running", outputData := none, errorMessage := none })],
        controls := [("e1", (false, false))], logs := [] } "e1").2.1
      { status := "running", outputData := none, errorMessage := none } (by rfl)).2,
   (claim_C9_amended
      { executions := [("e2", { status := "pending", outputData := none, errorMessage := none })],
        controls := [("e2", (false, false))], logs := [] } "e2").2.2.1
      { status := "pending", outputData := none, errorMessage := none } (by rfl) (by decide)⟩

/-! ### Claim C2: observer callback errors -/

/-- C2 evidence: the same one-node workflow completes with no callback but
is marked failed when the installed callback raises on every invocation —
as the service-installed status_callback does, since the engine always
calls the callback with a single dict argument while status_callback
requires (node_id, status, ...), so every invocation raises TypeError.
The raising callback even escapes execute_workflow itself (the re-raise
happens inside context.fail), after the context status was set to failed. -/
theorem claim_C2_callback_failure :
    (match executeWorkflow builtinRegistry (fun _ _ _ => true)
        (fun nid _ _ _ => .ok (.str nid)) "e" "w"
        { nodes := [{ id := "a", type := "input", config := [] }], edges := [] } [] .noCallback with
     | (.ok r, _, _) => r.status
     | (.error _, _, _) => "escaped") = "completed" ∧
    (match executeWorkflow builtinRegistry (fun _ _ _ => true)
        (fun nid _ _ _ => .ok (.str nid)) "e" "w"
        { nodes := [{ id := "a", type := "input", config := [] }], edges := [] } [] .raising with
     | (.ok r, _, _) => r.status
     | (.error _, _, _) => "escaped") = "escaped" ∧
    (executeWorkflow builtinRegistry (fun _ _ _ => true)
        (fun nid _ _ _ => .ok (.str nid)) "e" "w"
        { nodes := [{ id := "a", type := "input", config := [] }], edges := [] } [] .raising).2.1.status =
      "failed" :=
  ⟨rfl, rfl, rfl⟩

/-! ### DFS cycle detection: completeness lemmas -/

theorem alGet_append_left {α : Type} {g : List (String × α)} {u : String} {l : α}
    (h : alGet g u = some l) (g2 : List (String × α)) : alGet (g ++ g2) u = some l := by
  induction g with
  | nil => simp [alGet] at h
  | cons hd tl ih =>
      obtain ⟨k, w⟩ := hd
      by_cases hk : k = u
      · simp [alGet, hk] at h ⊢
        exact h
      · simp [alGet, hk] at h ⊢
        exact ih h

theorem alGet_append_missing {α : Type} {g : List (String × α)} {u : String}
    (h : alGet g u = none) (x : α) : alGet (g ++ [(u, x)]) u = some x := by
  induction g with
  | nil => simp [alGet]
  | cons hd tl ih =>
      obtain ⟨k, w⟩ := hd
      by_cases hk : k = u
      · simp [alGet, hk] at h
      · simp [alGet, hk] at h ⊢
        exact ih h

theorem alGet_some_mem_keys {α : Type} {g : List (String × α)} {u : String} {l : α}
    (h : alGet g u = some l) : u ∈ alKeys g := by
  induction g with
  | nil => simp [alGet] at h
  | cons hd tl ih =>
      obtain ⟨k, w⟩ := hd
      by_cases hk : k = u
      · simp [alKeys, hk]
      · simp [alGet, hk] at h
        simp [alKeys]
        right
        have := ih h
        simpa [alKeys] using this

theorem indexOf_append_self {l : List String} {a : String} (h : a ∉ l) :
    (l ++ [a]).indexOf a = l.length := by
  induction l with
  | nil => simp
  | cons x xs ih =>
      have hx : ¬ (x == a) = true := by
        simp
        rintro rfl
        exact h (by simp)
      have hmem : a ∉ xs := fun hm => h (by simp [hm])
      simp only [List.cons_append, List.indexOf_cons, hx, Bool.false_eq_true, cond_false]
      rw [ih hmem]
      simp

theorem graphStep_sub_neighbors {g : List (String × List String)} {u v : String}
    (h : GraphStep g u v) : v ∈ (alGet g u).getD [] := by
  obtain ⟨l, hl, hv⟩ := h
  rw [hl]
  exact hv

/-- One edge-fold step preserves existing adjacency. -/
theorem edgeFoldStep_mono {g : List (String × List String)} {e : FlowEdge} {u v : String}
    (h : GraphStep g u v) :
    GraphStep
      (match alGet g e.source with
       | some l => alSet g e.source (l ++ [e.target])
       | none => g ++ [(e.source, [e.target])]) u v := by
  obtain ⟨l, hl, hv⟩ := h
  cases hs : alGet g e.source with
  | some l2 =>
      simp only
      by_cases hu : e.source = u
      · subst hu
        rw [hl] at hs
        injection hs with h2
        subst h2
        exact ⟨l ++ [e.target], alGet_alSet_self _ _ _, List.mem_append_left _ hv⟩
      · exact ⟨l, by rw [alGet_alSet_ne _ _ _ _ hu]; exact hl, hv⟩
  | none =>
      simp only
      exact ⟨l, alGet_append_left hl _, hv⟩

/-- One edge-fold step records its own edge. -/
theorem edgeFoldStep_self {g : List (String × List String)} (e : FlowEdge) :
    GraphStep
      (match alGet g e.source with
       | some l => alSet g e.source (l ++ [e.target])
       | none => g ++ [(e.source, [e.target])]) e.source e.target := by
  cases hs : alGet g e.source with
  | some l =>
      simp only
      exact ⟨l ++ [e.target], alGet_alSet_self _ _ _, by simp⟩
  | none =>
      simp only
      exact ⟨[e.target], alGet_append_missing hs _, by simp⟩

/-- Monotone over the whole edge fold: existing adjacency survives. -/
theorem buildGraph_fold_mono (edges : List FlowEdge) :
    ∀ (g : List (String × List String)) (u v : String), GraphStep g u v →
      GraphStep (edges.foldl (fun g edge =>
        match alGet g edge.source with
        | some l => alSet g edge.source (l ++ [edge.target])
        | none => g ++ [(edge.source, [edge.target])]) g) u v := by
  induction edges with
  | nil => intro g u v h; exact h
  | cons e rest ih =>
      intro g u v h
      simp only [List.foldl_cons]
      exact ih _ u v (edgeFoldStep_mono h)

/-- Every edge of the list is an adjacency step after the edge fold. -/
theorem buildGraph_fold_step (edges : List FlowEdge) :
    ∀ (g : List (String × List String)) (e : FlowEdge), e ∈ edges →
      GraphStep (edges.foldl (fun g edge =>
        match alGet g edge.source with
        | some l => alSet g edge.source (l ++ [edge.target])
        | none => g ++ [(edge.source, [edge.target])]) g) e.source e.target := by
  induction edges with
  | nil => intro g e h; simp at h
  | cons e2 rest ih =>
      intro g e h
      simp only [List.foldl_cons]
      cases h with
      | head =>
          exact buildGraph_fold_mono rest _ _ _ (edgeFoldStep_self e2)
      | tail _ hm => exact ih _ e hm

/-- Every definition edge is an adjacency step of the built graph. -/
theorem buildGraph_step {d : WorkflowDefinition} {u v : String}
    (h : EdgeStep d.edges u v) : GraphStep (buildGraph d) u v := by
  obtain ⟨e, he, hs, ht⟩ := h
  subst hs
  subst ht
  unfold buildGraph
  exact buildGraph_fold_step d.edges _ e he

theorem pathTC_mono {r s : String → String → Prop} (h : ∀ a b, r a b → s a b) :
    ∀ {u w : String}, PathTC r u w → PathTC s u w := by
  intro u w hp
  induction hp with
  | single hr => exact .single (h _ _ hr)
  | cons hr _ ih => exact .cons (h _ _ hr) ih

theorem dfsVisitList_ok {g : List (String × List String)}
    (next : String → List String → List String → DfsR)
    (hnext : ∀ (u : String) (visited stack visited2 : List String),
      next u visited stack = .ok visited2 → u ∉ visited →
      ∀ F, DfsInv g visited stack F →
        ∃ F2, DfsInv g visited2 stack F2 ∧ F <+: F2 ∧ u ∈ F2) :
    ∀ (ns visited stack visited2 : List String),
      dfsVisitList next ns visited stack = .ok visited2 →
      ∀ F, DfsInv g visited stack F →
        ∃ F2, DfsInv g visited2 stack F2 ∧ F <+: F2 ∧ ∀ n ∈ ns, n ∈ F2 := by
  intro ns
  induction ns with
  | nil =>
      intro visited stack visited2 h F hInv
      simp only [dfsVisitList] at h
      injection h with h2
      subst h2
      exact ⟨F, hInv, List.prefix_refl F, by simp⟩
  | cons n rest ih =>
      intro visited stack visited2 h F hInv
      simp only [dfsVisitList] at h
      by_cases hv : n ∈ visited
      · rw [if_pos hv] at h
        by_cases hstk : n ∈ stack
        · rw [if_pos hstk] at h
          exact absurd h (by simp)
        · rw [if_neg hstk] at h
          obtain ⟨F2, hInv2, hpre, hns⟩ := ih visited stack visited2 h F hInv
          have hnF : n ∈ F := by
            rcases (hInv.1 n).mp hv with h2 | h2
            · exact h2
            · exact absurd h2 hstk
          refine ⟨F2, hInv2, hpre, ?_⟩
          intro m hm
          rcases List.mem_cons.mp hm with h3 | h3
          · subst h3
            exact hpre.subset hnF
          · exact hns m h3
      · rw [if_neg hv] at h
        cases hcall : next n visited stack with
        | cyc => rw [hcall] at h; exact absurd h (by simp)
        | out => rw [hcall] at h; exact absurd h (by simp)
        | ok visited3 =>
            rw [hcall] at h
            obtain ⟨F1, hInv1, hpre1, hnF1⟩ := hnext n visited stack visited3 hcall hv F hInv
            obtain ⟨F2, hInv2, hpre2, hns⟩ := ih visited3 stack visited2 h F1 hInv1
            refine ⟨F2, hInv2, hpre1.trans hpre2, ?_⟩
            intro m hm
            rcases List.mem_cons.mp hm with h3 | h3
            · subst h3
              exact hpre2.subset hnF1
            · exact hns m h3

theorem dfsNode_ok (g : List (String × List String)) :
    ∀ (fuel : Nat) (u : String) (visited stack visited2 : List String),
      dfsNode g fuel u visited stack = .ok visited2 → u ∉ visited →
      ∀ F, DfsInv g visited stack F →
        ∃ F2, DfsInv g visited2 stack F2 ∧ F <+: F2 ∧ u ∈ F2 := by
  intro fuel
  induction fuel with
  | zero =>
      intro u visited stack visited2 h
      exact absurd h (by simp [dfsNode])
  | succ fuel ih =>
      intro u visited stack visited2 h hu F hInv
      simp only [dfsNode] at h
      have hInv1 : DfsInv g (setAdd visited u) (u :: stack) F := by
        obtain ⟨hiff, hdisj, hnodup, hgood⟩ := hInv
        refine ⟨?_, ?_, hnodup, hgood⟩
        · intro x
          unfold setAdd
          rw [if_neg hu]
          constructor
          · intro hx
            rcases List.mem_append.mp hx with hx2 | hx2
            · rcases (hiff x).mp hx2 with h3 | h3
              · exact Or.inl h3
              · exact Or.inr (List.mem_cons_of_mem _ h3)
            · simp at hx2
              subst hx2
              exact Or.inr (List.mem_cons_self _ _)
          · intro hx
            rcases hx with h3 | h3
            · exact List.mem_append_left _ ((hiff x).mpr (Or.inl h3))
            · rcases List.mem_cons.mp h3 with h4 | h4
              · subst h4
                exact List.mem_append_right _ (by simp)
              · exact List.mem_append_left _ ((hiff x).mpr (Or.inr h4))
        · intro x hxF hcons
          rcases List.mem_cons.mp hcons with h4 | h4
          · subst h4
            exact hu ((hiff x).mpr (Or.inl hxF))
          · exact (hdisj x hxF) h4
      obtain ⟨F2, hInv2, hpre, hns⟩ :=
        dfsVisitList_ok (dfsNode g fuel) ih
          ((alGet g u).getD []) (setAdd visited u) (u :: stack) visited2 h F hInv1
      obtain ⟨hiff2, hdisj2, hnodup2, hgood2⟩ := hInv2
      have huStack : u ∉ stack := fun hs => hu ((hInv.1 u).mpr (Or.inr hs))
      have huF2 : u ∉ F2 := fun hf => (hdisj2 u hf) (List.mem_cons_self _ _)
      refine ⟨F2 ++ [u], ⟨?_, ?_, ?_, ?_⟩, hpre.trans (List.prefix_append F2 [u]), by simp⟩
      · intro x
        rw [hiff2 x]
        constructor
        · intro hx
          rcases hx with h3 | h3
          · exact Or.inl (List.mem_append_left _ h3)
          · rcases List.mem_cons.mp h3 with h4 | h4
            · subst h4
              exact Or.inl (List.mem_append_right _ (by simp))
            · exact Or.inr h4
        · intro hx
          rcases hx with h3 | h3
          · rcases List.mem_append.mp h3 with h4 | h4
            · exact Or.inl h4
            · simp at h4
              subst h4
              exact Or.inr (List.mem_cons_self _ _)
          · exact Or.inr (List.mem_cons_of_mem _ h3)
      · intro x hx hxs
        rcases List.mem_append.mp hx with h4 | h4
        · exact (hdisj2 x h4) (List.mem_cons_of_mem _ hxs)
        · simp at h4
          subst h4
          exact huStack hxs
      · refine List.Nodup.append hnodup2 (by simp) ?_
        intro a haF2 ha1
        simp at ha1
        subst ha1
        exact huF2 haF2
      · intro w hw v hstep
        rcases List.mem_append.mp hw with h4 | h4
        · obtain ⟨hvF2, hidx⟩ := hgood2 w h4 v hstep
          refine ⟨List.mem_append_left _ hvF2, ?_⟩
          rw [List.indexOf_append_of_mem hvF2, List.indexOf_append_of_mem h4]
          exact hidx
        · simp at h4
          subst h4
          have hvn : v ∈ (alGet g w).getD [] := graphStep_sub_neighbors hstep
          have hvF2 : v ∈ F2 := hns v hvn
          refine ⟨List.mem_append_left _ hvF2, ?_⟩
          rw [List.indexOf_append_of_mem hvF2, indexOf_append_self huF2]
          exact List.indexOf_lt_length.mpr hvF2

theorem hasCycleLoop_false (g : List (String × List String)) (fuel : Nat) :
    ∀ (keys visited : List String), hasCycleLoop g fuel keys visited = false →
      ∀ F, DfsInv g visited [] F →
        ∃ F2, GoodF g F2 ∧ F <+: F2 ∧ ∀ k ∈ keys, k ∈ F2 := by
  intro keys
  induction keys with
  | nil =>
      intro visited h F hInv
      exact ⟨F, hInv.2.2.2, List.prefix_refl F, by simp⟩
  | cons k rest ih =>
      intro visited h F hInv
      simp only [hasCycleLoop] at h
      by_cases hv : k ∈ visited
      · rw [if_pos hv] at h
        obtain ⟨F2, hg, hpre, hall⟩ := ih visited h F hInv
        have hkF : k ∈ F := by
          rcases (hInv.1 k).mp hv with h2 | h2
          · exact h2
          · simp at h2
        refine ⟨F2, hg, hpre, ?_⟩
        intro m hm
        rcases List.mem_cons.mp hm with h3 | h3
        · subst h3
          exact hpre.subset hkF
        · exact hall m h3
      · rw [if_neg hv] at h
        cases hcall : dfsNode g fuel k visited [] with
        | cyc => rw [hcall] at h; simp at h
        | out => rw [hcall] at h; simp at h
        | ok visited2 =>
            rw [hcall] at h
            obtain ⟨F1, hInv1, hpre1, hk⟩ := dfsNode_ok g fuel k visited [] visited2 hcall hv F hInv
            obtain ⟨F2, hg, hpre2, hall⟩ := ih visited2 h F1 hInv1
            refine ⟨F2, hg, hpre1.trans hpre2, ?_⟩
            intro m hm
            rcases List.mem_cons.mp hm with h3 | h3
            · subst h3
              exact hpre2.subset hk
            · exact hall m h3

theorem goodF_no_cycle {g : List (String × List String)} {F : List String}
    (hg : GoodF g F) (hkeys : ∀ k ∈ alKeys g, k ∈ F) :
    ∀ u, ¬ PathTC (GraphStep g) u u := by
  have hpath : ∀ u w, PathTC (GraphStep g) u w → u ∈ F →
      w ∈ F ∧ List.indexOf w F < List.indexOf u F := by
    intro u w hp
    induction hp with
    | single hr =>
        intro hu
        exact hg _ hu _ hr
    | cons hr hp2 ih =>
        intro hu
        obtain ⟨hv, hidx⟩ := hg _ hu _ hr
        obtain ⟨hw, hidx2⟩ := ih hv
        exact ⟨hw, Nat.lt_trans hidx2 hidx⟩
  intro u hp
  have hu : u ∈ F := by
    have hstep : ∃ v, GraphStep g u v := by
      cases hp with
      | single hr => exact ⟨_, hr⟩
      | cons hr _ => exact ⟨_, hr⟩
    obtain ⟨v, l, hl, _⟩ := hstep
    exact hkeys u (alGet_some_mem_keys hl)
  have := hpath u u hp hu
  omega

/-- Completeness of _has_cycle: every semantic cycle of the adjacency
relation is detected. -/
theorem hasCycle_complete {g : List (String × List String)}
    (h : ∃ u, PathTC (GraphStep g) u u) : hasCycle g = true := by
  cases hc : hasCycle g with
  | true => rfl
  | false =>
      exfalso
      unfold hasCycle at hc
      obtain ⟨F2, hg, _, hall⟩ := hasCycleLoop_false g _ (alKeys g) [] hc []
        ⟨by simp, by simp, List.nodup_nil, by intro u hu; simp at hu⟩
      obtain ⟨u, hp⟩ := h
      exact goodF_no_cycle hg hall u hp

/-! ### Claims C3 and C8: cycle rejection -/

/-- Shared pipeline fact: with a callback that does not raise, a definition
whose built graph has a semantic cycle yields the failed result with the
circular-dependencies message, the context marked failed, and an empty
execute trace. -/
theorem executeWorkflow_cycle (registry : List String) (validateB : ValidateB) (execB : ExecB)
    (eid wid : String) (d : WorkflowDefinition) (input : List (String × Value)) (cb : CbKind)
    (hcb : cb ≠ .raising) (hcyc : ∃ u, PathTC (GraphStep (buildGraph d)) u u) :
    (executeWorkflow registry validateB execB eid wid d input cb).1 =
      .ok { status := "failed", output := none,
            error := some "Workflow execution failed: Workflow contains circular dependencies" } ∧
    (executeWorkflow registry validateB execB eid wid d input cb).2.1.status = "failed" ∧
    (executeWorkflow registry validateB execB eid wid d input cb).2.2.execs = [] := by
  have hc := hasCycle_complete hcyc
  cases cb with
  | raising => exact absurd rfl hcb
  | noCallback =>
      refine ⟨?_, ?_, ?_⟩ <;>
        simp [executeWorkflow, ctxStart, ctxAddLog, initCtx, engineCatch, ctxFail, hc]
  | benign =>
      refine ⟨?_, ?_, ?_⟩ <;>
        simp [executeWorkflow, ctxStart, ctxAddLog, initCtx, engineCatch, ctxFail, hc]

/-- C3: a submitted definition whose edge relation contains a cycle makes
the run terminate failed, with an error message containing the word
circular, and with no node execute ever invoked (stated for callbacks that
do not raise; the service-installed callback raises on every call, which is
the separate finding of claim C2). -/
theorem claim_C3_cycle_rejection (registry : List String) (validateB : ValidateB) (execB : ExecB)
    (eid wid : String) (d : WorkflowDefinition) (input : List (String × Value)) (cb : CbKind)
    (hcb : cb ≠ .raising) (hcyc : HasCycleIn d) :
    (executeWorkflow registry validateB execB eid wid d input cb).1 =
      .ok { status := "failed", output := none,
            error := some "Workflow execution failed: Workflow contains circular dependencies" } ∧
    "circular".data <:+:
      "Workflow execution failed: Workflow contains circular dependencies".data ∧
    (executeWorkflow registry validateB execB eid wid d input cb).2.1.status = "failed" ∧
    (executeWorkflow registry validateB execB eid wid d input cb).2.2.execs = [] := by
  obtain ⟨u, hp⟩ := hcyc
  have hcyc2 : ∃ u, PathTC (GraphStep (buildGraph d)) u u :=
    ⟨u, pathTC_mono (fun a b h => buildGraph_step h) hp⟩
  obtain ⟨h1, h2, h3⟩ :=
    executeWorkflow_cycle registry validateB execB eid wid d input cb hcb hcyc2
  exact ⟨h1, by decide, h2, h3⟩

/-- Witness for C3 at the concrete two-node cycle n1 -> n2 -> n1. -/
theorem claim_C3_cycle_rejection_witness :
    (executeWorkflow builtinRegistry (fun _ _ _ => true) (fun nid _ _ _ => .ok (.str nid))
        "e" "w"
        { nodes := [{ id := "n1", type := "input", config := [] },
                    { id := "n2", type := "transform", config := [] }],
          edges := [{ source := "n1", target := "n2" }, { source := "n2", target := "n1" }] }
        [] .noCallback).1 =
      .ok { status := "failed", output := none,
            error := some "Workflow execution failed: Workflow contains circular dependencies" } ∧
    (executeWorkflow builtinRegistry (fun _ _ _ => true) (fun nid _ _ _ => .ok (.str nid))
        "e" "w"
        { nodes := [{ id := "n1", type := "input", config := [] },
                    { id := "n2", type := "transform", config := [] }],
          edges := [{ source := "n1", target := "n2" }, { source := "n2", target := "n1" }] }
        [] .noCallback).2.2.execs = [] := by
  have h := claim_C3_cycle_rejection builtinRegistry (fun _ _ _ => true)
    (fun nid _ _ _ => .ok (.str nid)) "e" "w"
    { nodes := [{ id := "n1", type := "input", config := [] },
                { id := "n2", type := "transform", config := [] }],
      edges := [{ source := "n1", target := "n2" }, { source := "n2", target := "n1" }] }
    [] .noCallback (by decide)
    ⟨"n1", .cons ⟨{ source := "n1", target := "n2" }, by simp, rfl, rfl⟩
      (.single ⟨{ source := "n2", target := "n1" }, by simp, rfl, rfl⟩)⟩
  exact ⟨h.1, h.2.2.2⟩

/-- C8 as written is false at a concrete input: a definition with the
self-loop a -> a is rejected by validation (a self-loop is a one-edge
cycle), with the circular-dependencies error. -/
theorem claim_C8_counterexample :
    hasCycle (buildGraph
      { nodes := [{ id := "a", type := "input", config := [] }],
        edges := [{ source := "a", target := "a" }] }) = true ∧
    (executeWorkflow builtinRegistry (fun _ _ _ => true) (fun nid _ _ _ => .ok (.str nid))
        "e" "w"
        { nodes := [{ id := "a", type := "input", config := [] }],
          edges := [{ source := "a", target := "a" }] } [] .noCallback).1 =
      .ok { status := "failed", output := none,
            error := some "Workflow execution failed: Workflow contains circular dependencies" } :=
  ⟨rfl, rfl⟩

/-- C8 amended: duplicate edges are tolerated — a concrete acyclic
definition listing the same edge twice completes with every node executed —
but a self-loop is a cycle and is rejected: every definition containing an
edge whose source equals its target terminates failed with the
circular-dependencies message and no execute is invoked (for callbacks
that do not raise). -/
theorem claim_C8_selfloop_rejected_duplicates_tolerated :
    (∀ (registry : List String) (validateB : ValidateB) (execB : ExecB)
       (eid wid : String) (d : WorkflowDefinition) (input : List (String × Value)) (cb : CbKind),
      cb ≠ .raising → (∃ e ∈ d.edges, e.source = e.target) →
      (executeWorkflow registry validateB execB eid wid d input cb).1 =
        .ok { status := "failed", output := none,
              error := some "Workflow execution failed: Workflow contains circular dependencies" } ∧
      (executeWorkflow registry validateB execB eid wid d input cb).2.2.execs = []) ∧
    (executeWorkflow builtinRegistry (fun _ _ _ => true) (fun nid _ _ _ => .ok (.str nid))
        "e" "w"
        { nodes := [{ id := "a", type := "input", config := [] },
                    { id := "b", type := "output", config := [] }],
          edges := [{ source := "a", target := "b" }, { source := "a", target := "b" }] }
        [] .noCallback).1 =
      .ok { status := "completed", output := some (.str "b"), error := none } ∧
    (executeWorkflow builtinRegistry (fun _ _ _ => true) (fun nid _ _ _ => .ok (.str nid))
        "e" "w"
        { nodes := [{ id := "a", type := "input", config := [] },
                    { id := "b", type := "output", config := [] }],
          edges := [{ source := "a", target := "b" }, { source := "a", target := "b" }] }
        [] .noCallback).2.2.execs = ["a", "b"] := by
  refine ⟨?_, rfl, rfl⟩
  intro registry validateB execB eid wid d input cb hcb hself
  obtain ⟨e, he, hst⟩ := hself
  have hcyc2 : ∃ u, PathTC (GraphStep (buildGraph d)) u u :=
    ⟨e.source, .single (buildGraph_step ⟨e, he, rfl, hst.symm ▸ rfl⟩)⟩
  obtain ⟨h1, _, h3⟩ :=
    executeWorkflow_cycle registry validateB execB eid wid d input cb hcb hcyc2
  exact ⟨h1, h3⟩

/-- Witness for C8 amended at the concrete self-loop definition. -/
theorem claim_C8_selfloop_witness :
    (executeWorkflow builtinRegistry (fun _ _ _ => true) (fun nid _ _ _ => .ok (.str nid))
        "e2" "w2"
        { nodes := [{ id := "a", type := "input", config := [] }],
          edges := [{ source := "a", target := "a" }] } [] .noCallback).1 =
      .ok { status := "failed", output := none,
            error := some "Workflow execution failed: Workflow contains circular dependencies" } ∧
    (executeWorkflow builtinRegistry (fun _ _ _ => true) (fun nid _ _ _ => .ok (.str nid))
        "e2" "w2"
        { nodes := [{ id := "a", type := "input", config := [] }],
          edges := [{ source := "a", target := "a" }] } [] .noCallback).2.2.execs = [] :=
  claim_C8_selfloop_rejected_duplicates_tolerated.1 builtinRegistry (fun _ _ _ => true)
    (fun nid _ _ _ => .ok (.str nid)) "e2" "w2"
    { nodes := [{ id := "a", type := "input", config := [] }],
      edges := [{ source := "a", target := "a" }] } [] .noCallback (by decide)
    ⟨{ source := "a", target := "a" }, by simp, rfl⟩

/-! ### Scheduler invariants: association list and graph structure lemmas -/

theorem alKeys_nil {α : Type} : alKeys ([] : List (String × α)) = [] := rfl

theorem alKeys_cons {α : Type} (p : String × α) (l : List (String × α)) :
    alKeys (p :: l) = p.1 :: alKeys l := rfl

theorem alKeys_append {α : Type} (l1 l2 : List (String × α)) :
    alKeys (l1 ++ l2) = alKeys l1 ++ alKeys l2 := List.map_append _ _ _

theorem mem_alKeys {α : Type} {l : List (String × α)} {k : String} :
    k ∈ alKeys l ↔ ∃ x, (k, x) ∈ l := by
  induction l with
  | nil => simp [alKeys_nil]
  | cons p tl ih =>
      obtain ⟨k2, w⟩ := p
      rw [alKeys_cons]
      simp only [List.mem_cons, ih]
      constructor
      · rintro (h | ⟨x, hx⟩)
        · exact ⟨w, Or.inl (by simp [h])⟩
        · exact ⟨x, Or.inr hx⟩
      · rintro ⟨x, h | hx⟩
        · left
          have h2 : k = k2 ∧ x = w := by
            constructor <;> [exact congrArg Prod.fst h; exact congrArg Prod.snd h]
          exact h2.1
        · exact Or.inr ⟨x, hx⟩

theorem alGet_none_iff {α : Type} (l : List (String × α)) (k : String) :
    alGet l k = none ↔ k ∉ alKeys l := by
  induction l with
  | nil => simp [alGet, alKeys_nil]
  | cons hd tl ih =>
      obtain ⟨k2, w⟩ := hd
      rw [alKeys_cons]
      by_cases h : k2 = k
      · subst h
        simp [alGet]
      · simp [alGet, h, ih, Ne.symm h]

theorem alKeys_alSet_mem {α : Type} {l : List (String × α)} {k : String} {w : α}
    (h : alGet l k = some w) (v : α) : alKeys (alSet l k v) = alKeys l := by
  induction l with
  | nil => simp [alGet] at h
  | cons hd tl ih =>
      obtain ⟨k2, w2⟩ := hd
      by_cases hk : k2 = k
      · simp [alSet, hk, alKeys_cons]
      · simp only [alGet, if_neg hk] at h
        simp only [alSet, if_neg hk, alKeys_cons]
        rw [ih h]

theorem alKeys_alSet_missing {α : Type} {l : List (String × α)} {k : String}
    (h : alGet l k = none) (v : α) : alKeys (alSet l k v) = alKeys l ++ [k] := by
  induction l with
  | nil => simp [alSet, alKeys_nil, alKeys_cons]
  | cons hd tl ih =>
      obtain ⟨k2, w2⟩ := hd
      by_cases hk : k2 = k
      · subst hk
        simp [alGet] at h
      · simp only [alGet, if_neg hk] at h
        simp only [alSet, if_neg hk, alKeys_cons]
        rw [ih h]
        rfl

theorem alKeys_nodup_alSet {α : Type} {l : List (String × α)} {k : String} (v : α)
    (h : (alKeys l).Nodup) : (alKeys (alSet l k v)).Nodup := by
  cases hg : alGet l k with
  | some w =>
      rw [alKeys_alSet_mem hg]
      exact h
  | none =>
      rw [alKeys_alSet_missing hg]
      refine List.Nodup.append h (by simp) ?_
      intro a ha ha2
      simp at ha2
      subst ha2
      exact (alGet_none_iff l a).mp hg ha

theorem mem_of_alGet {α : Type} {l : List (String × α)} {k : String} {x : α}
    (h : alGet l k = some x) : (k, x) ∈ l := by
  induction l with
  | nil => simp [alGet] at h
  | cons hd tl ih =>
      obtain ⟨k2, w⟩ := hd
      by_cases hk : k2 = k
      · subst hk
        simp [alGet] at h
        subst h
        simp
      · simp only [alGet, if_neg hk] at h
        exact List.mem_cons_of_mem _ (ih h)

theorem mem_keys_of_alGet {α : Type} {l : List (String × α)} {k : String} {x : α}
    (h : alGet l k = some x) : k ∈ alKeys l :=
  mem_alKeys.mpr ⟨x, mem_of_alGet h⟩

theorem alGet_append_single {α : Type} (l : List (String × α)) (t : String) (x : α) (u : String) :
    alGet (l ++ [(t, x)]) u =
      match alGet l u with
      | some y => some y
      | none => if t = u then some x else none := by
  induction l with
  | nil => simp [alGet]
  | cons hd tl ih =>
      obtain ⟨k, w⟩ := hd
      by_cases hk : k = u
      · simp [alGet, hk]
      · simp only [List.cons_append, alGet, if_neg hk]
        exact ih

/-- The node-initialization fold of _build_execution_graph: every value is
the empty list, the keys are the accumulator keys plus the node ids, and
key duplicate-freeness is preserved. -/
theorem nodesFold_spec :
    ∀ (nodes : List FlowNode) (acc : List (String × List String)),
      (∀ u l, alGet acc u = some l → l = []) →
      (∀ u l, alGet (nodes.foldl (fun g node =>
          if (alGet g node.id).isSome then g else g ++ [(node.id, [])]) acc) u = some l →
        l = []) ∧
      (∀ u, u ∈ alKeys (nodes.foldl (fun g node =>
          if (alGet g node.id).isSome then g else g ++ [(node.id, [])]) acc) ↔
        u ∈ alKeys acc ∨ ∃ n ∈ nodes, n.id = u) ∧
      ((alKeys acc).Nodup → (alKeys (nodes.foldl (fun g node =>
          if (alGet g node.id).isSome then g else g ++ [(node.id, [])]) acc)).Nodup) := by
  intro nodes
  induction nodes with
  | nil =>
      intro acc hval
      exact ⟨hval, by intro u; simp, fun h => h⟩
  | cons n rest ih =>
      intro acc hval
      simp only [List.foldl_cons]
      by_cases hn : (alGet acc n.id).isSome
      · rw [if_pos hn]
        obtain ⟨h1, h2, h3⟩ := ih acc hval
        refine ⟨h1, ?_, h3⟩
        intro u
        rw [h2 u]
        constructor
        · rintro (h4 | ⟨m, hm, hid⟩)
          · exact Or.inl h4
          · exact Or.inr ⟨m, List.mem_cons_of_mem _ hm, hid⟩
        · rintro (h4 | ⟨m, hm, hid⟩)
          · exact Or.inl h4
          · rcases List.mem_cons.mp hm with h5 | h5
            · subst h5
              rw [← hid]
              rw [Option.isSome_iff_exists] at hn
              obtain ⟨x, hx⟩ := hn
              exact Or.inl (mem_keys_of_alGet hx)
            · exact Or.inr ⟨m, h5, hid⟩
      · rw [if_neg hn]
        have hnone : alGet acc n.id = none := by
          cases hx : alGet acc n.id with
          | none => rfl
          | some y => rw [hx] at hn; simp at hn
        have hval2 : ∀ u l, alGet (acc ++ [(n.id, [])]) u = some l → l = [] := by
          intro u l h
          rw [alGet_append_single] at h
          cases hg : alGet acc u with
          | some x =>
              rw [hg] at h
              simp at h
              subst h
              exact hval u x hg
          | none =>
              rw [hg] at h
              simp at h
              exact h.2
        obtain ⟨h1, h2, h3⟩ := ih (acc ++ [(n.id, [])]) hval2
        refine ⟨h1, ?_, ?_⟩
        · intro u
          rw [h2 u]
          rw [alKeys_append]
          simp only [List.mem_append]
          constructor
          · rintro ((h4 | h4) | ⟨m, hm, hid⟩)
            · exact Or.inl h4
            · simp [alKeys_cons, alKeys_nil] at h4
              exact Or.inr ⟨n, List.mem_cons_self _ _, h4.symm⟩
            · exact Or.inr ⟨m, List.mem_cons_of_mem _ hm, hid⟩
          · rintro (h4 | ⟨m, hm, hid⟩)
            · exact Or.inl (Or.inl h4)
            · rcases List.mem_cons.mp hm with h5 | h5
              · subst h5
                rw [← hid]
                exact Or.inl (Or.inr (by simp [alKeys_cons, alKeys_nil]))
              · exact Or.inr ⟨m, h5, hid⟩
        · intro hnd
          apply h3
          rw [alKeys_append]
          refine List.Nodup.append hnd (by simp [alKeys_cons, alKeys_nil]) ?_
          intro a ha ha2
          simp [alKeys_cons, alKeys_nil] at ha2
          rw [ha2] at ha
          exact (alGet_none_iff acc n.id).mp hnone ha

/-- The edge fold of _build_execution_graph: each key's successor list
grows by the targets of its edges in order; keys grow by edge sources;
key duplicate-freeness is preserved. -/
theorem edgesFold_spec :
    ∀ (edges : List FlowEdge) (g : List (String × List String)),
      (∀ u, (alGet (edges.foldl (fun g edge =>
          match alGet g edge.source with
          | some l => alSet g edge.source (l ++ [edge.target])
          | none => g ++ [(edge.source, [edge.target])]) g) u).getD [] =
        (alGet g u).getD [] ++ (edges.filter (fun e => e.source == u)).map (fun e => e.target)) ∧
      ((alKeys g).Nodup → (alKeys (edges.foldl (fun g edge =>
          match alGet g edge.source with
          | some l => alSet g edge.source (l ++ [edge.target])
          | none => g ++ [(edge.source, [edge.target])]) g)).Nodup) ∧
      (∀ u, u ∈ alKeys (edges.foldl (fun g edge =>
          match alGet g edge.source with
          | some l => alSet g edge.source (l ++ [edge.target])
          | none => g ++ [(edge.source, [edge.target])]) g) ↔
        u ∈ alKeys g ∨ ∃ e ∈ edges, e.source = u) := by
  intro edges
  induction edges with
  | nil =>
      intro g
      exact ⟨by intro u; simp, fun h => h, by intro u; simp⟩
  | cons e rest ih =>
      intro g
      simp only [List.foldl_cons]
      have hadj1 : ∀ u,
          (alGet (match alGet g e.source with
            | some l => alSet g e.source (l ++ [e.target])
            | none => g ++ [(e.source, [e.target])]) u).getD [] =
          (alGet g u).getD [] ++ (if e.source = u then [e.target] else []) := by
        intro u
        cases hs : alGet g e.source with
        | some l =>
            simp only
            by_cases hu : e.source = u
            · subst hu
              rw [alGet_alSet_self, hs]
              simp
            · rw [alGet_alSet_ne _ _ _ _ hu, if_neg hu]
              simp
        | none =>
            simp only
            rw [alGet_append_single]
            by_cases hu : e.source = u
            · subst hu
              rw [hs]
              simp
            · cases hg : alGet g u with
              | some x => simp [hu]
              | none => simp [hu]
      have hkeys1 : ∀ u, u ∈ alKeys (match alGet g e.source with
            | some l => alSet g e.source (l ++ [e.target])
            | none => g ++ [(e.source, [e.target])]) ↔
          u ∈ alKeys g ∨ e.source = u := by
        intro u
        cases hs : alGet g e.source with
        | some l =>
            simp only
            rw [alKeys_alSet_mem hs]
            constructor
            · exact Or.inl
            · rintro (h | h)
              · exact h
              · rw [← h]
                exact mem_keys_of_alGet hs
        | none =>
            simp only
            rw [alKeys_append]
            simp [alKeys_cons, alKeys_nil, eq_comm]
      have hnd1 : (alKeys g).Nodup → (alKeys (match alGet g e.source with
            | some l => alSet g e.source (l ++ [e.target])
            | none => g ++ [(e.source, [e.target])])).Nodup := by
        intro hnd
        cases hs : alGet g e.source with
        | some l =>
            simp only
            rw [alKeys_alSet_mem hs]
            exact hnd
        | none =>
            simp only
            rw [alKeys_append]
            refine List.Nodup.append hnd (by simp [alKeys_cons, alKeys_nil]) ?_
            intro a ha ha2
            simp [alKeys_cons, alKeys_nil] at ha2
            rw [ha2] at ha
            exact (alGet_none_iff g e.source).mp hs ha
      obtain ⟨ih1, ih2, ih3⟩ := ih (match alGet g e.source with
        | some l => alSet g e.source (l ++ [e.target])
        | none => g ++ [(e.source, [e.target])])
      refine ⟨?_, ?_, ?_⟩
      · intro u
        rw [ih1 u, hadj1 u]
        rw [List.filter_cons]
        by_cases hu : e.source = u
        · simp [hu, List.append_assoc]
        · simp [hu]
      · intro hnd
        exact ih2 (hnd1 hnd)
      · intro u
        rw [ih3 u, hkeys1 u]
        constructor
        · rintro ((h | h) | ⟨e2, he2, hs2⟩)
          · exact Or.inl h
          · exact Or.inr ⟨e, List.mem_cons_self _ _, h⟩
          · exact Or.inr ⟨e2, List.mem_cons_of_mem _ he2, hs2⟩
        · rintro (h | ⟨e2, he2, hs2⟩)
          · exact Or.inl (Or.inl h)
          · rcases List.mem_cons.mp he2 with h5 | h5
            · subst h5
              exact Or.inl (Or.inr hs2)
            · exact Or.inr ⟨e2, h5, hs2⟩

/-- Adjacency of the built graph: the successor list of u consists of the
targets of the edges with source u, in edge order (empty for non-keys). -/
theorem buildGraph_adj (d : WorkflowDefinition) (u : String) :
    (alGet (buildGraph d) u).getD [] =
      (d.edges.filter (fun e => e.source == u)).map (fun e => e.target) := by
  unfold buildGraph
  obtain ⟨hval, _, _⟩ := nodesFold_spec d.nodes [] (by intro u l h; simp [alGet] at h)
  obtain ⟨hadj, _, _⟩ := edgesFold_spec d.edges _
  rw [hadj u]
  have hempty : (alGet (d.nodes.foldl (fun g node =>
      if (alGet g node.id).isSome then g else g ++ [(node.id, [])])
      ([] : List (String × List String))) u).getD [] = ([] : List String) := by
    cases hx : alGet (d.nodes.foldl (fun g node =>
        if (alGet g node.id).isSome then g else g ++ [(node.id, [])])
        ([] : List (String × List String))) u with
    | none => simp
    | some l =>
        rw [hval u l hx]
        simp
  rw [hempty]
  simp

theorem buildGraph_keys_nodup (d : WorkflowDefinition) :
    (alKeys (buildGraph d)).Nodup := by
  unfold buildGraph
  obtain ⟨_, _, hnd0⟩ := nodesFold_spec d.nodes [] (by intro u l h; simp [alGet] at h)
  obtain ⟨_, hnd, _⟩ := edgesFold_spec d.edges _
  exact hnd (hnd0 (by simp [alKeys_nil]))

theorem mem_keys_buildGraph (d : WorkflowDefinition) (u : String) :
    u ∈ alKeys (buildGraph d) ↔
      (∃ n ∈ d.nodes, n.id = u) ∨ ∃ e ∈ d.edges, e.source = u := by
  unfold buildGraph
  obtain ⟨_, hk0, _⟩ := nodesFold_spec d.nodes [] (by intro u l h; simp [alGet] at h)
  obtain ⟨_, _, hk⟩ := edgesFold_spec d.edges _
  rw [hk u, hk0 u]
  simp [alKeys_nil]

/-! ### Counting lemmas for the in-degree bookkeeping -/

theorem doneCount_nil (S : List String) (v : String) : doneCount [] S v = 0 := by
  simp [doneCount, alGet]

theorem doneCount_cons_mem {p : String × List String} {g : List (String × List String)}
    {S : List String} {v : String} (hS : S.Nodup) (hmem : p.1 ∈ S) :
    doneCount (p :: g) S v = p.2.count v + doneCount g (S.erase p.1) v := by
  obtain ⟨k, l⟩ := p
  have hperm : S.Perm (k :: S.erase k) := List.perm_cons_erase hmem
  unfold doneCount
  rw [List.Perm.sum_eq (hperm.map _)]
  simp only [List.map_cons, List.sum_cons]
  have hk : ((alGet ((k, l) :: g) k).getD []).count v = l.count v := by
    simp [alGet]
  rw [hk]
  congr 1
  congr 1
  apply List.map_congr_left
  intro u hu
  have hne : u ≠ k := by
    rw [List.Nodup.mem_erase_iff hS] at hu
    exact hu.1
  simp [alGet, Ne.symm hne]

theorem doneCount_cons_not_mem {p : String × List String} {g : List (String × List String)}
    {S : List String} {v : String} (hmem : p.1 ∉ S) :
    doneCount (p :: g) S v = doneCount g S v := by
  obtain ⟨k, l⟩ := p
  unfold doneCount
  congr 1
  apply List.map_congr_left
  intro u hu
  have hne : u ≠ k := fun h => hmem (h ▸ hu)
  simp [alGet, Ne.symm hne]

theorem gIntoCount_cons (p : String × List String) (g : List (String × List String)) (v : String) :
    gIntoCount (p :: g) v = p.2.count v + gIntoCount g v := by
  simp [gIntoCount]

theorem doneCount_le_gInto :
    ∀ (g : List (String × List String)) (S : List String) (v : String),
      (alKeys g).Nodup → S.Nodup → doneCount g S v ≤ gIntoCount g v := by
  intro g
  induction g with
  | nil =>
      intro S v _ _
      rw [doneCount_nil]
      exact Nat.zero_le _
  | cons p g ih =>
      intro S v hkeys hS
      rw [alKeys_cons] at hkeys
      have hkeys2 := hkeys.of_cons
      rw [gIntoCount_cons]
      by_cases hmem : p.1 ∈ S
      · rw [doneCount_cons_mem hS hmem]
        have := ih (S.erase p.1) v hkeys2 (hS.erase _)
        omega
      · rw [doneCount_cons_not_mem hmem]
        have := ih S v hkeys2 hS
        omega

theorem gInto_le_doneCount :
    ∀ (g : List (String × List String)) (S : List String) (v : String),
      (alKeys g).Nodup → S.Nodup →
      (∀ u, 0 < ((alGet g u).getD []).count v → u ∈ S) →
      gIntoCount g v ≤ doneCount g S v := by
  intro g
  induction g with
  | nil =>
      intro S v _ _ _
      simp [gIntoCount]
  | cons p g ih =>
      intro S v hkeys hS hcov
      rw [alKeys_cons] at hkeys
      have hk1 : p.1 ∉ alKeys g := by
        have := hkeys.not_mem
        simpa using this
      have hkeys2 := hkeys.of_cons
      rw [gIntoCount_cons]
      have hcov2 : ∀ u, 0 < ((alGet g u).getD []).count v → u ∈ S := by
        intro u hu
        have hne : u ≠ p.1 := by
          rintro rfl
          have hnone : alGet g p.1 = none := (alGet_none_iff g p.1).mpr hk1
          rw [hnone] at hu
          simp at hu
        apply hcov
        obtain ⟨k, l⟩ := p
        simpa [alGet, Ne.symm hne] using hu
      by_cases hpos : 0 < p.2.count v
      · have hmem : p.1 ∈ S := by
          apply hcov
          obtain ⟨k, l⟩ := p
          simpa [alGet] using hpos
        rw [doneCount_cons_mem hS hmem]
        have hcov3 : ∀ u, 0 < ((alGet g u).getD []).count v → u ∈ S.erase p.1 := by
          intro u hu
          have hne : u ≠ p.1 := by
            rintro rfl
            have hnone : alGet g p.1 = none := (alGet_none_iff g p.1).mpr hk1
            rw [hnone] at hu
            simp at hu
          rw [List.Nodup.mem_erase_iff hS]
          exact ⟨hne, hcov2 u hu⟩
        have := ih (S.erase p.1) v hkeys2 (hS.erase _) hcov3
        omega
      · by_cases hmem : p.1 ∈ S
        · rw [doneCount_cons_mem hS hmem]
          have hcov3 : ∀ u, 0 < ((alGet g u).getD []).count v → u ∈ S.erase p.1 := by
            intro u hu
            have hne : u ≠ p.1 := by
              rintro rfl
              have hnone : alGet g p.1 = none := (alGet_none_iff g p.1).mpr hk1
              rw [hnone] at hu
              simp at hu
            rw [List.Nodup.mem_erase_iff hS]
            exact ⟨hne, hcov2 u hu⟩
          have := ih (S.erase p.1) v hkeys2 (hS.erase _) hcov3
          omega
        · rw [doneCount_cons_not_mem hmem]
          have := ih S v hkeys2 hS hcov2
          omega

theorem count_adj_pos_iff (d : WorkflowDefinition) (u v : String) :
    0 < ((alGet (buildGraph d) u).getD []).count v ↔
      ∃ e ∈ d.edges, e.source = u ∧ e.target = v := by
  rw [buildGraph_adj]
  rw [List.count_pos_iff]
  simp only [List.mem_map, List.mem_filter]
  constructor
  · rintro ⟨e, ⟨he, hs⟩, ht⟩
    exact ⟨e, he, by simpa using hs, ht⟩
  · rintro ⟨e, he, hs, ht⟩
    exact ⟨e, ⟨he, by simpa using hs⟩, ht⟩

/-- One incoming edge makes the incoming count of the target positive. -/
theorem gInto_pos_of_edge {d : WorkflowDefinition} {e : FlowEdge} (he : e ∈ d.edges) :
    0 < gIntoCount (buildGraph d) e.target := by
  have hcnt : 0 < ((alGet (buildGraph d) e.source).getD []).count e.target :=
    (count_adj_pos_iff d e.source e.target).mpr ⟨e, he, rfl, rfl⟩
  have hle : doneCount (buildGraph d) [e.source] e.target ≤ gIntoCount (buildGraph d) e.target :=
    doneCount_le_gInto _ _ _ (buildGraph_keys_nodup d) (by simp)
  have : doneCount (buildGraph d) [e.source] e.target =
      ((alGet (buildGraph d) e.source).getD []).count e.target := by
    simp [doneCount]
  omega

/-! ### String and association-list facts for the scheduler proofs -/

theorem string_append_cancel {s u v : String} (h : s ++ u = s ++ v) : u = v := by
  have h2 : (s ++ u).data = (s ++ v).data := by rw [h]
  rw [String.data_append, String.data_append] at h2
  have h3 := List.append_cancel_left h2
  cases u
  cases v
  exact congrArg String.mk h3

theorem alGet_of_mem_nodup {α : Type} {l : List (String × α)} {k : String} {x : α}
    (hnd : (alKeys l).Nodup) (hmem : (k, x) ∈ l) : alGet l k = some x := by
  induction l with
  | nil => simp at hmem
  | cons p t ih =>
      obtain ⟨k2, y⟩ := p
      rw [alKeys_cons] at hnd
      rcases List.mem_cons.mp hmem with heq | htl
      · obtain ⟨rfl, rfl⟩ := Prod.mk.injEq .. ▸ heq
        simp_all [alGet]
      · by_cases hk : k2 = k
        · subst hk
          exfalso
          exact hnd.not_mem (mem_alKeys.mpr ⟨x, htl⟩)
        · simpa [alGet, hk] using ih hnd.of_cons htl

theorem doneCount_append (g : List (String × List String)) (S S2 : List String) (v : String) :
    doneCount g (S ++ S2) v = doneCount g S v + doneCount g S2 v := by
  simp [doneCount]

theorem doneCount_perm {g : List (String × List String)} {S S2 : List String} {v : String}
    (h : List.Perm S S2) : doneCount g S v = doneCount g S2 v :=
  (h.map _).sum_eq

theorem doneCount_keys :
    ∀ (g : List (String × List String)) (v : String), (alKeys g).Nodup →
      doneCount g (alKeys g) v = gIntoCount g v := by
  intro g
  induction g with
  | nil => intro v _; simp [doneCount, gIntoCount, alKeys_nil]
  | cons p t ih =>
      intro v hnd
      rw [alKeys_cons] at hnd ⊢
      rw [doneCount_cons_mem hnd (List.mem_cons_self _ _), List.erase_cons_head,
        gIntoCount_cons, ih v hnd.of_cons]

theorem gInto_pos_of_count {g : List (String × List String)} {u v : String}
    (hkeys : (alKeys g).Nodup) (h : 0 < ((alGet g u).getD []).count v) :
    0 < gIntoCount g v := by
  have hle : doneCount g [u] v ≤ gIntoCount g v :=
    doneCount_le_gInto _ _ _ hkeys (by simp)
  have : doneCount g [u] v = ((alGet g u).getD []).count v := by simp [doneCount]
  omega

/-! ### initInDegree and the initial ready list -/

theorem incr_fold_get :
    ∀ (ts : List String) (acc : List (String × Int)) (v : String),
      alGet (ts.foldl (fun acc t => alSet acc t ((alGet acc t).getD 0 + 1)) acc) v =
        if (alGet acc v).isSome ∨ 0 < ts.count v then
          some ((alGet acc v).getD 0 + (ts.count v : Int))
        else none := by
  intro ts
  induction ts with
  | nil =>
      intro acc v
      cases h : alGet acc v <;> simp [h]
  | cons t ts ih =>
      intro acc v
      rw [List.foldl_cons, ih]
      by_cases hv : v = t
      · subst hv
        rw [alGet_alSet_self]
        simp only [Option.isSome_some, true_or, if_true, Option.getD_some,
          List.count_cons_self]
        rw [if_pos (Or.inr (Nat.succ_pos _))]
        congr 1
        push_cast
        ring
      · rw [alGet_alSet_ne _ _ _ _ (fun h => hv h.symm),
          List.count_cons_of_ne hv]

theorem incr_fold_keys_nodup :
    ∀ (ts : List String) (acc : List (String × Int)), (alKeys acc).Nodup →
      (alKeys (ts.foldl (fun acc t => alSet acc t ((alGet acc t).getD 0 + 1)) acc)).Nodup := by
  intro ts
  induction ts with
  | nil => intro acc h; exact h
  | cons t ts ih =>
      intro acc h
      rw [List.foldl_cons]
      exact ih _ (alKeys_nodup_alSet _ h)

theorem alGet_zeroInit (g : List (String × List String)) (v : String) :
    alGet (g.map (fun p => (p.1, (0 : Int)))) v =
      if v ∈ alKeys g then some 0 else none := by
  induction g with
  | nil => simp [alGet, alKeys_nil]
  | cons p t ih =>
      by_cases h : p.1 = v
      · simp [alGet, h, alKeys_cons]
      · rw [List.map_cons]
        have : alGet ((p.1, (0 : Int)) :: t.map (fun p => (p.1, (0 : Int)))) v =
            alGet (t.map (fun p => (p.1, (0 : Int)))) v := by
          simp [alGet, h]
        rw [this, ih, alKeys_cons]
        by_cases hm : v ∈ alKeys t <;> simp [hm, h, Ne.symm h]

theorem initInDegree_fold_get :
    ∀ (gs : List (String × List String)) (acc : List (String × Int)) (v : String),
      alGet (gs.foldl
          (fun acc p => p.2.foldl (fun acc t => alSet acc t ((alGet acc t).getD 0 + 1)) acc)
          acc) v =
        if (alGet acc v).isSome ∨ 0 < gIntoCount gs v then
          some ((alGet acc v).getD 0 + (gIntoCount gs v : Int))
        else none := by
  intro gs
  induction gs with
  | nil =>
      intro acc v
      cases h : alGet acc v <;> simp [h, gIntoCount]
  | cons p gs ih =>
      intro acc v
      rw [List.foldl_cons, ih, incr_fold_get, gIntoCount_cons]
      cases h : alGet acc v with
      | none =>
          by_cases h2 : 0 < p.2.count v
          · have h4 : 0 < p.2.count v + gIntoCount gs v := by omega
            simp only [Option.isSome_none, Bool.false_eq_true, false_or, Option.getD_none,
              if_pos h2, if_pos h4, Option.isSome_some, true_or, if_true, Option.getD_some,
              Option.some.injEq]
            push_cast
            ring
          · have hc : p.2.count v = 0 := by omega
            by_cases h3 : 0 < gIntoCount gs v <;> simp [hc, h3]
      | some k =>
          simp only [Option.isSome_some, true_or, if_true, Option.getD_some,
            Option.some.injEq]
          push_cast
          ring

theorem initInDegree_get (g : List (String × List String)) (v : String) :
    alGet (initInDegree g) v =
      if v ∈ alKeys g ∨ 0 < gIntoCount g v then some ((gIntoCount g v : Int)) else none := by
  unfold initInDegree
  rw [initInDegree_fold_get, alGet_zeroInit]
  by_cases h : v ∈ alKeys g <;> by_cases h2 : 0 < gIntoCount g v <;> simp [h, h2]

theorem initInDegree_keys_nodup {g : List (String × List String)}
    (h : (alKeys g).Nodup) : (alKeys (initInDegree g)).Nodup := by
  unfold initInDegree
  have hbase : alKeys (g.map (fun p => (p.1, (0 : Int)))) = alKeys g := by
    simp [alKeys, List.map_map]
  have : ∀ (gs : List (String × List String)) (acc : List (String × Int)),
      (alKeys acc).Nodup →
      (alKeys (gs.foldl
        (fun acc p => p.2.foldl (fun acc t => alSet acc t ((alGet acc t).getD 0 + 1)) acc)
        acc)).Nodup := by
    intro gs
    induction gs with
    | nil => intro acc hacc; exact hacc
    | cons p gs ih2 =>
        intro acc hacc
        rw [List.foldl_cons]
        exact ih2 _ (incr_fold_keys_nodup _ _ hacc)
  exact this g _ (hbase ▸ h)

theorem mem_ready0 {l : List (String × Int)} {v : String} :
    v ∈ l.filterMap (fun p => if p.2 = 0 then some p.1 else none) ↔
      ∃ p ∈ l, p.2 = 0 ∧ p.1 = v := by
  rw [List.mem_filterMap]
  constructor
  · rintro ⟨p, hp, hif⟩
    by_cases h0 : p.2 = 0
    · rw [if_pos h0] at hif
      exact ⟨p, hp, h0, Option.some.inj hif⟩
    · rw [if_neg h0] at hif
      exact absurd hif (by simp)
  · rintro ⟨p, hp, h0, hv⟩
    exact ⟨p, hp, by rw [if_pos h0, hv]⟩

theorem ready0_sublist (l : List (String × Int)) :
    List.Sublist (l.filterMap (fun p => if p.2 = 0 then some p.1 else none))
      (l.map Prod.fst) := by
  induction l with
  | nil => simp
  | cons p t ih =>
      by_cases h : p.2 = 0
      · simpa [h] using ih.cons₂ p.1
      · simpa [h] using ih.cons p.1

/-! ### gatherTasks -/

theorem gatherTasks_ok {nodes : List FlowNode} :
    ∀ (rids : List String) (outId : Option String) (bs : List FlowNode) (out2 : Option String),
      gatherTasks nodes rids outId = .ok (bs, out2) →
      bs.map (fun n => n.id) = rids ∧ ∀ n ∈ bs, n ∈ nodes := by
  intro rids
  induction rids with
  | nil =>
      intro outId bs out2 h
      simp only [gatherTasks] at h
      obtain ⟨h1, _⟩ := Prod.mk.injEq .. ▸ Except.ok.inj h
      subst h1
      simp
  | cons nid rest ih =>
      intro outId bs out2 h
      simp only [gatherTasks] at h
      split at h
      · exact absurd h (by simp)
      · rename_i node hf
        split at h
        · rename_i batch outF hg
          obtain ⟨h1, _⟩ := Prod.mk.injEq .. ▸ Except.ok.inj h
          subst h1
          obtain ⟨hmap, hmem⟩ := ih _ _ _ hg
          have hid : node.id = nid := by
            have := List.find?_some hf
            simpa using this
          have hnode : node ∈ nodes := List.mem_of_find?_eq_some hf
          refine ⟨by simp [hmap, hid], ?_⟩
          intro n hn
          rcases List.mem_cons.mp hn with rfl | hn2
          · exact hnode
          · exact hmem n hn2
        · exact absurd h (by simp)

/-! ### decSuccessors -/

theorem decSuccessors_spec :
    ∀ (ts : List String) (inDeg : List (String × Int)) (ready : List String),
      (∀ t ∈ ts, ∃ k : Int, alGet inDeg t = some k ∧ (ts.count t : Int) ≤ k) →
      (∀ v, alGet (decSuccessors ts inDeg ready).1 v =
        (alGet inDeg v).map (fun k => k - (ts.count v : Int))) ∧
      ∃ newly, (decSuccessors ts inDeg ready).2 = ready ++ newly ∧ newly.Nodup ∧
        (∀ v, v ∈ newly ↔ v ∈ ts ∧ alGet inDeg v = some ((ts.count v : Int))) := by
  intro ts
  induction ts with
  | nil =>
      intro inDeg ready _
      refine ⟨fun v => ?_, [], by simp [decSuccessors], by simp, fun v => by simp⟩
      cases h : alGet inDeg v <;> simp [decSuccessors, h]
  | cons t ts ih =>
      intro inDeg ready H
      obtain ⟨k0, hk0, hle0⟩ := H t (List.mem_cons_self _ _)
      have hstep : decSuccessors (t :: ts) inDeg ready =
          decSuccessors ts (alSet inDeg t ((alGet inDeg t).getD 0 - 1))
            (if (alGet inDeg t).getD 0 - 1 = 0 then ready ++ [t] else ready) := rfl
      rw [hstep, hk0]
      simp only [Option.getD_some]
      have H2 : ∀ u ∈ ts, ∃ k : Int,
          alGet (alSet inDeg t (k0 - 1)) u = some k ∧ (ts.count u : Int) ≤ k := by
        intro u hu
        by_cases hut : u = t
        · subst hut
          refine ⟨k0 - 1, alGet_alSet_self _ _ _, ?_⟩
          rw [List.count_cons_self] at hle0
          push_cast at hle0 ⊢
          omega
        · obtain ⟨k, hk, hlek⟩ := H u (List.mem_cons_of_mem _ hu)
          refine ⟨k, ?_, ?_⟩
          · rw [alGet_alSet_ne _ _ _ _ (fun h => hut h.symm)]
            exact hk
          · rw [List.count_cons_of_ne hut] at hlek
            exact hlek
      obtain ⟨D1, newly', hready', hnodup', hmem'⟩ := ih _ _ H2
      refine ⟨fun v => ?_, ?_⟩
      · rw [D1 v]
        by_cases hv : v = t
        · subst hv
          rw [alGet_alSet_self, hk0, List.count_cons_self]
          simp only [Option.map_some', Option.some.injEq]
          push_cast
          ring
        · rw [alGet_alSet_ne _ _ _ _ (fun h => hv h.symm), List.count_cons_of_ne hv]
      · by_cases hzero : k0 - 1 = 0
        · have htnots : t ∉ ts := by
            intro hmemts
            have hpos : 0 < ts.count t := List.count_pos_iff.mpr hmemts
            rw [List.count_cons_self] at hle0
            push_cast at hle0
            omega
          refine ⟨t :: newly', ?_, ?_, ?_⟩
          · rw [if_pos hzero] at hready' ⊢
            rw [hready', List.append_assoc]
            rfl
          · exact List.nodup_cons.mpr
              ⟨fun hmem => htnots ((hmem' t).mp hmem).1, hnodup'⟩
          · intro v
            rw [List.mem_cons, hmem' v]
            constructor
            · rintro (rfl | ⟨hvts, hvk⟩)
              · refine ⟨List.mem_cons_self _ _, ?_⟩
                rw [hk0, List.count_cons_self]
                have hc0 : ts.count v = 0 := List.count_eq_zero.mpr htnots
                rw [hc0]
                push_cast
                congr 1
                omega
              · have hvt : v ≠ t := fun h => htnots (h ▸ hvts)
                refine ⟨List.mem_cons_of_mem _ hvts, ?_⟩
                rw [alGet_alSet_ne _ _ _ _ (fun h => hvt h.symm)] at hvk
                rw [List.count_cons_of_ne hvt]
                exact hvk
            · rintro ⟨hvmem, hvk⟩
              rcases List.mem_cons.mp hvmem with rfl | hvts
              · exact Or.inl rfl
              · have hvt : v ≠ t := fun h => htnots (h ▸ hvts)
                right
                refine ⟨hvts, ?_⟩
                rw [alGet_alSet_ne _ _ _ _ (fun h => hvt h.symm)]
                rw [List.count_cons_of_ne hvt] at hvk
                exact hvk
        · refine ⟨newly', ?_, hnodup', ?_⟩
          · rw [if_neg hzero] at hready'
            rw [if_neg hzero]
            exact hready'
          · intro v
            rw [hmem' v]
            by_cases hvt : v = t
            · subst hvt
              constructor
              · rintro ⟨hvts, hvk⟩
                rw [alGet_alSet_self] at hvk
                have h1 := Option.some.inj hvk
                refine ⟨List.mem_cons_self _ _, ?_⟩
                rw [hk0, List.count_cons_self]
                push_cast at h1 ⊢
                congr 1
                omega
              · rintro ⟨_, hvk⟩
                rw [hk0] at hvk
                have h1 := Option.some.inj hvk
                by_cases hmemts : v ∈ ts
                · refine ⟨hmemts, ?_⟩
                  rw [alGet_alSet_self]
                  rw [List.count_cons_self] at h1
                  push_cast at h1
                  congr 1
                  omega
                · exfalso
                  apply hzero
                  have hc0 : ts.count v = 0 := List.count_eq_zero.mpr hmemts
                  rw [List.count_cons_self, hc0] at h1
                  push_cast at h1
                  omega
            · rw [alGet_alSet_ne _ _ _ _ (fun h => hvt h.symm), List.count_cons_of_ne hvt]
              constructor
              · rintro ⟨hvts, hvk⟩
                exact ⟨List.mem_cons_of_mem _ hvts, hvk⟩
              · rintro ⟨hvmem, hvk⟩
                rcases List.mem_cons.mp hvmem with rfl | hvts
                · exact absurd rfl hvt
                · exact ⟨hvts, hvk⟩

/-! ### Context primitives and runNode -/

theorem ctxSetNodeStatus_fields (ctx : Ctx) (nid s : String) :
    (ctxSetNodeStatus ctx nid s).2.nodeStatuses = alSet ctx.nodeStatuses nid s ∧
    (ctxSetNodeStatus ctx nid s).2.nodeOutputs = ctx.nodeOutputs ∧
    (ctxSetNodeStatus ctx nid s).2.vars = ctx.vars := by
  dsimp only [ctxSetNodeStatus]
  split <;> exact ⟨rfl, rfl, rfl⟩

theorem ctxAddLog_fields (ctx : Ctx) (l m : String) :
    (ctxAddLog ctx l m).2.nodeStatuses = ctx.nodeStatuses ∧
    (ctxAddLog ctx l m).2.nodeOutputs = ctx.nodeOutputs ∧
    (ctxAddLog ctx l m).2.vars = ctx.vars := by
  dsimp only [ctxAddLog]
  split <;> exact ⟨rfl, rfl, rfl⟩

theorem ctxSetNodeOutput_fields (ctx : Ctx) (nid : String) (out : Value) :
    (ctxSetNodeOutput ctx nid out).nodeStatuses = ctx.nodeStatuses ∧
    (ctxSetNodeOutput ctx nid out).nodeOutputs = alSet ctx.nodeOutputs nid out ∧
    (ctxSetNodeOutput ctx nid out).vars = alSet ctx.vars ("nodes." ++ nid) out :=
  ⟨rfl, rfl, rfl⟩

theorem runNodeHandler_spec (nid m : String) (ctx : Ctx) :
    (runNodeHandler nid m ctx).2.nodeStatuses = alSet ctx.nodeStatuses nid "failed" ∧
    (runNodeHandler nid m ctx).2.nodeOutputs = ctx.nodeOutputs ∧
    (runNodeHandler nid m ctx).2.vars = ctx.vars ∧
    (∀ r, (runNodeHandler nid m ctx).1 = .ok r → r.status = "failed") := by
  obtain ⟨hs1, ho1, hv1⟩ := ctxSetNodeStatus_fields ctx nid "failed"
  unfold runNodeHandler
  split
  · rename_i e c heq
    have hc : (ctxSetNodeStatus ctx nid "failed").2 = c := congrArg Prod.snd heq
    rw [hc] at hs1 ho1 hv1
    exact ⟨hs1, ho1, hv1, fun r hr => absurd hr (by simp)⟩
  · rename_i u c heq
    have hc : (ctxSetNodeStatus ctx nid "failed").2 = c := congrArg Prod.snd heq
    rw [hc] at hs1 ho1 hv1
    obtain ⟨hs2, ho2, hv2⟩ := ctxAddLog_fields c "error" m
    split
    · rename_i e c2 heq2
      have hc2 : (ctxAddLog c "error" m).2 = c2 := congrArg Prod.snd heq2
      rw [hc2] at hs2 ho2 hv2
      exact ⟨hs2.trans hs1, ho2.trans ho1, hv2.trans hv1, fun r hr => absurd hr (by simp)⟩
    · rename_i u2 c2 heq2
      have hc2 : (ctxAddLog c "error" m).2 = c2 := congrArg Prod.snd heq2
      rw [hc2] at hs2 ho2 hv2
      refine ⟨hs2.trans hs1, ho2.trans ho1, hv2.trans hv1, fun r hr => ?_⟩
      have := Except.ok.inj hr
      rw [← this]


theorem runNode_spec (reg : List String) (vB : ValidateB) (eB : ExecB)
    (node : FlowNode) (ctx : Ctx) (instr : Instr) :
    (∀ p ∈ (runNode reg vB eB node ctx instr).2.2.begins,
        p ∈ instr.begins ∨ p = (node.id, ctx)) ∧
    (∀ u, u ≠ node.id →
      alGet (runNode reg vB eB node ctx instr).2.1.nodeStatuses u = alGet ctx.nodeStatuses u ∧
      alGet (runNode reg vB eB node ctx instr).2.1.nodeOutputs u = alGet ctx.nodeOutputs u ∧
      alGet (runNode reg vB eB node ctx instr).2.1.vars ("nodes." ++ u) =
        alGet ctx.vars ("nodes." ++ u)) ∧
    (∀ r, (runNode reg vB eB node ctx instr).1 = .ok r → r.status ≠ "failed" →
      CtxPredOk (runNode reg vB eB node ctx instr).2.1 node.id) := by
  have hnodes : ∀ u : String, u ≠ node.id → "nodes." ++ node.id ≠ "nodes." ++ u :=
    fun u hu h => hu (string_append_cancel h).symm
  obtain ⟨ex, wf, ind, cb, stt, er, va, no, ns, lg⟩ := ctx
  by_cases hreg : node.type ∈ reg
  · cases cb with
    | noCallback =>
      dsimp only [runNode, ctxSetNodeStatus, ctxAddLog, ctxSetNodeOutput, runNodeHandler]
      rw [if_pos hreg]
      by_cases hval : vB node.id node.type node.config
      · rw [if_pos hval]
        split
        · refine ⟨fun p hp => by simpa using List.mem_append.mp hp, fun u hu => ?_,
            fun r hr hne => ?_⟩
          · exact ⟨by rw [alGet_alSet_ne _ _ _ _ (fun h => hu h.symm),
              alGet_alSet_ne _ _ _ _ (fun h => hu h.symm)], rfl, rfl⟩
          · have h2 := Except.ok.inj hr
            exact absurd (by rw [← h2]) hne
        · refine ⟨fun p hp => by simpa using List.mem_append.mp hp, fun u hu => ?_,
            fun r _ _ => ?_⟩
          · exact ⟨by rw [alGet_alSet_ne _ _ _ _ (fun h => hu h.symm),
              alGet_alSet_ne _ _ _ _ (fun h => hu h.symm)],
              by rw [alGet_alSet_ne _ _ _ _ (fun h => hu h.symm)],
              by rw [alGet_alSet_ne _ _ _ _ (hnodes u hu)]⟩
          · exact ⟨by rw [alGet_alSet_self], by rw [alGet_alSet_self]; rfl,
              by rw [alGet_alSet_self]; rfl⟩
      · rw [if_neg hval]
        refine ⟨fun p hp => by simpa using List.mem_append.mp hp, fun u hu => ?_,
          fun r hr hne => ?_⟩
        · exact ⟨by rw [alGet_alSet_ne _ _ _ _ (fun h => hu h.symm),
            alGet_alSet_ne _ _ _ _ (fun h => hu h.symm)], rfl, rfl⟩
        · have h2 := Except.ok.inj hr
          exact absurd (by rw [← h2]) hne
    | benign =>
      dsimp only [runNode, ctxSetNodeStatus, ctxAddLog, ctxSetNodeOutput, runNodeHandler]
      rw [if_pos hreg]
      by_cases hval : vB node.id node.type node.config
      · rw [if_pos hval]
        split
        · refine ⟨fun p hp => by simpa using List.mem_append.mp hp, fun u hu => ?_,
            fun r hr hne => ?_⟩
          · exact ⟨by rw [alGet_alSet_ne _ _ _ _ (fun h => hu h.symm),
              alGet_alSet_ne _ _ _ _ (fun h => hu h.symm)], rfl, rfl⟩
          · have h2 := Except.ok.inj hr
            exact absurd (by rw [← h2]) hne
        · refine ⟨fun p hp => by simpa using List.mem_append.mp hp, fun u hu => ?_,
            fun r _ _ => ?_⟩
          · exact ⟨by rw [alGet_alSet_ne _ _ _ _ (fun h => hu h.symm),
              alGet_alSet_ne _ _ _ _ (fun h => hu h.symm)],
              by rw [alGet_alSet_ne _ _ _ _ (fun h => hu h.symm)],
              by rw [alGet_alSet_ne _ _ _ _ (hnodes u hu)]⟩
          · exact ⟨by rw [alGet_alSet_self], by rw [alGet_alSet_self]; rfl,
              by rw [alGet_alSet_self]; rfl⟩
      · rw [if_neg hval]
        refine ⟨fun p hp => by simpa using List.mem_append.mp hp, fun u hu => ?_,
          fun r hr hne => ?_⟩
        · exact ⟨by rw [alGet_alSet_ne _ _ _ _ (fun h => hu h.symm),
            alGet_alSet_ne _ _ _ _ (fun h => hu h.symm)], rfl, rfl⟩
        · have h2 := Except.ok.inj hr
          exact absurd (by rw [← h2]) hne
    | raising =>
      dsimp only [runNode, ctxSetNodeStatus, ctxAddLog, ctxSetNodeOutput, runNodeHandler]
      rw [if_pos hreg]
      refine ⟨fun p hp => by simpa using List.mem_append.mp hp, fun u hu => ?_,
        fun r hr hne => ?_⟩
      · exact ⟨by rw [alGet_alSet_ne _ _ _ _ (fun h => hu h.symm),
          alGet_alSet_ne _ _ _ _ (fun h => hu h.symm)], rfl, rfl⟩
      · exact absurd hr (by simp)
  · cases cb <;>
      · dsimp only [runNode]
        rw [if_neg hreg]
        exact ⟨fun p hp => Or.inl hp, fun u _ => ⟨rfl, rfl, rfl⟩,
          fun r hr => absurd hr (by simp)⟩

theorem ctxPredOk_runNode {reg : List String} {vB : ValidateB} {eB : ExecB}
    {node : FlowNode} {ctx : Ctx} {instr : Instr} {u : String}
    (hok : CtxPredOk ctx u) (hrun : alGet ctx.nodeStatuses node.id = none) :
    CtxPredOk (runNode reg vB eB node ctx instr).2.1 u := by
  have hne : u ≠ node.id := by
    intro h
    rw [h] at hok
    rw [hok.1] at hrun
    exact absurd hrun (by simp)
  obtain ⟨hf1, hf2, hf3⟩ := (runNode_spec reg vB eB node ctx instr).2.1 u hne
  exact ⟨by rw [hf1]; exact hok.1, by rw [hf2]; exact hok.2.1, by rw [hf3]; exact hok.2.2⟩

theorem predsDone_runNode {d : WorkflowDefinition} {reg : List String} {vB : ValidateB}
    {eB : ExecB} {node : FlowNode} {ctx : Ctx} {instr : Instr} {v : String}
    (hpd : PredsDone d ctx v) (hrun : alGet ctx.nodeStatuses node.id = none) :
    PredsDone d (runNode reg vB eB node ctx instr).2.1 v :=
  fun e he ht => ctxPredOk_runNode (hpd e he ht) hrun

theorem runBatch_spec (reg : List String) (vB : ValidateB) (eB : ExecB)
    (d : WorkflowDefinition) :
    ∀ (bs : List FlowNode) (ctx : Ctx) (instr : Instr),
      (∀ p ∈ instr.begins, PredsDone d p.2 p.1) →
      (∀ n ∈ bs, alGet ctx.nodeStatuses n.id = none ∧ PredsDone d ctx n.id) →
      (bs.map (fun n => n.id)).Nodup →
      (∀ p ∈ (runBatch reg vB eB bs ctx instr).2.2.begins, PredsDone d p.2 p.1) ∧
      (runBatch reg vB eB bs ctx instr).1.map Prod.fst = bs.map (fun n => n.id) ∧
      (∀ pr ∈ (runBatch reg vB eB bs ctx instr).1, ∀ r, pr.2 = .ok r → r.status ≠ "failed" →
        CtxPredOk (runBatch reg vB eB bs ctx instr).2.1 pr.1) ∧
      (∀ u, CtxPredOk ctx u → CtxPredOk (runBatch reg vB eB bs ctx instr).2.1 u) ∧
      (∀ v, v ∉ bs.map (fun n => n.id) →
        alGet (runBatch reg vB eB bs ctx instr).2.1.nodeStatuses v =
          alGet ctx.nodeStatuses v) := by
  intro bs
  induction bs with
  | nil =>
      intro ctx instr hA hbs hnd
      exact ⟨hA, rfl, by simp [runBatch], fun u h => h, fun v _ => rfl⟩
  | cons node rest ih =>
      intro ctx instr hA hbs hnd
      have hstep : runBatch reg vB eB (node :: rest) ctx instr =
          ((node.id, (runNode reg vB eB node ctx instr).1) ::
            (runBatch reg vB eB rest (runNode reg vB eB node ctx instr).2.1
              (runNode reg vB eB node ctx instr).2.2).1,
           (runBatch reg vB eB rest (runNode reg vB eB node ctx instr).2.1
              (runNode reg vB eB node ctx instr).2.2).2.1,
           (runBatch reg vB eB rest (runNode reg vB eB node ctx instr).2.1
              (runNode reg vB eB node ctx instr).2.2).2.2) := rfl
      have hn := runNode_spec reg vB eB node ctx instr
      obtain ⟨hhead_stat, hhead_pd⟩ := hbs node (List.mem_cons_self _ _)
      rw [List.map_cons] at hnd
      have hnd_tail := hnd.of_cons
      have hnid_notin : node.id ∉ rest.map (fun n => n.id) := hnd.not_mem
      have hA2 : ∀ p ∈ (runNode reg vB eB node ctx instr).2.2.begins,
          PredsDone d p.2 p.1 := by
        intro p hp
        rcases hn.1 p hp with hold | rfl
        · exact hA p hold
        · exact hhead_pd
      have hbs2 : ∀ n ∈ rest,
          alGet (runNode reg vB eB node ctx instr).2.1.nodeStatuses n.id = none ∧
          PredsDone d (runNode reg vB eB node ctx instr).2.1 n.id := by
        intro n hnmem
        have hne : n.id ≠ node.id := by
          intro h
          exact hnid_notin (h ▸ List.mem_map_of_mem (fun n => n.id) hnmem)
        obtain ⟨hf1, _, _⟩ := hn.2.1 n.id hne
        obtain ⟨hs, hp⟩ := hbs n (List.mem_cons_of_mem _ hnmem)
        exact ⟨by rw [hf1]; exact hs, predsDone_runNode hp hhead_stat⟩
      obtain ⟨ihA, ihmap, ihres, ihpres, ihframe⟩ :=
        ih (runNode reg vB eB node ctx instr).2.1
          (runNode reg vB eB node ctx instr).2.2 hA2 hbs2 hnd_tail
      rw [hstep]
      refine ⟨ihA, ?_, ?_, ?_, ?_⟩
      · simpa using ihmap
      · intro pr hpr r hr hne
        rcases List.mem_cons.mp hpr with rfl | htl
        · have hok2 : CtxPredOk (runNode reg vB eB node ctx instr).2.1 node.id :=
            hn.2.2 r hr hne
          exact ihpres node.id hok2
        · exact ihres pr htl r hr hne
      · intro u hu
        exact ihpres u (ctxPredOk_runNode hu hhead_stat)
      · intro v hv
        rw [List.map_cons, List.mem_cons] at hv
        push_neg at hv
        rw [ihframe v hv.2]
        exact (hn.2.1 v hv.1).1

theorem doneCount_single (g : List (String × List String)) (u v : String) :
    doneCount g [u] v = ((alGet g u).getD []).count v := by
  simp [doneCount]

theorem processResults_inv (d : WorkflowDefinition) (g : List (String × List String))
    (ctx : Ctx) (instr : Instr)
    (hkeys : (alKeys g).Nodup)
    (hadj : ∀ e ∈ d.edges, 0 < ((alGet g e.source).getD []).count e.target) :
    ∀ (rs : List (String × Except String NodeRes)) (st st2 : SchedState),
      EngInvAux d g st ctx instr (rs.map Prod.fst) →
      (rs.map Prod.fst).Nodup →
      (∀ pr ∈ rs, (∃ n ∈ d.nodes, n.id = pr.1) ∧
        alGet st.inDegree pr.1 = some 0 ∧ pr.1 ∉ st.doneOk ∧
        (∀ r, pr.2 = .ok r → r.status ≠ "failed" → CtxPredOk ctx pr.1)) →
      processResults g rs st = .ok st2 →
      EngInvAux d g st2 ctx instr [] := by
  intro rs
  induction rs with
  | nil =>
      intro st st2 hinv _ _ hstep
      simp only [processResults] at hstep
      rw [← Except.ok.inj hstep]
      exact hinv
  | cons pr rest ih =>
      obtain ⟨nid, res⟩ := pr
      intro st st2 hinv hnd hrs hstep
      obtain ⟨A, B, B', C, C', D, Dom, E, G, H, I, J⟩ := hinv
      obtain ⟨hnode, hdeg0, hnotdone, hcpo⟩ := hrs (nid, res) (List.mem_cons_self _ _)
      rw [List.map_cons] at hnd
      have hnid_notin_rest : nid ∉ rest.map Prod.fst := hnd.not_mem
      have hnd_rest := hnd.of_cons
      cases res with
      | error e => exact absurd hstep (by simp [processResults])
      | ok r =>
          simp only [processResults] at hstep
          have hnotexec : nid ∉ st.executed := fun h => hnotdone ((G nid).mp h)
          rw [if_neg hnotexec] at hstep
          by_cases hfail : r.status = "failed"
          · rw [if_pos hfail] at hstep
            exact absurd hstep (by simp)
          rw [if_neg hfail] at hstep
          have hcpo_nid : CtxPredOk ctx nid := hcpo r rfl hfail
          have hD_nid := D nid 0 hdeg0
          have hdone_nodup : (st.doneOk ++ [nid]).Nodup := by
            rw [List.nodup_append]
            exact ⟨C', List.nodup_singleton _, by simpa using hnotdone⟩
          have hH : ∀ t ∈ (alGet g nid).getD [], ∃ k : Int,
              alGet st.inDegree t = some k ∧
              (((alGet g nid).getD []).count t : Int) ≤ k := by
            intro t ht
            have hcntpos : 0 < ((alGet g nid).getD []).count t := List.count_pos_iff.mpr ht
            have hgpos : 0 < gIntoCount g t := gInto_pos_of_count hkeys hcntpos
            have hsome := Dom t (Or.inl hgpos)
            obtain ⟨k, hk⟩ := Option.isSome_iff_exists.mp hsome
            refine ⟨k, hk, ?_⟩
            have hDk := D t k hk
            have hle : doneCount g (st.doneOk ++ [nid]) t ≤ gIntoCount g t :=
              doneCount_le_gInto _ _ _ hkeys hdone_nodup
            rw [doneCount_append, doneCount_single] at hle
            omega
          obtain ⟨D1, newly, hready, hnodup_newly, hnewly⟩ :=
            decSuccessors_spec ((alGet g nid).getD []) st.inDegree st.ready hH
          -- facts about the updated state
          have hdc' : ∀ v, doneCount g (st.doneOk ++ [nid]) v =
              doneCount g st.doneOk v + ((alGet g nid).getD []).count v := by
            intro v
            rw [doneCount_append, doneCount_single]
          have hD' : ∀ v k', alGet (decSuccessors ((alGet g nid).getD [])
              st.inDegree st.ready).1 v = some k' →
              k' = (gIntoCount g v : Int) - (doneCount g (st.doneOk ++ [nid]) v : Int) := by
            intro v k' hk'
            rw [D1 v] at hk'
            cases hold : alGet st.inDegree v with
            | none => rw [hold] at hk'; exact absurd hk' (by simp)
            | some k =>
                rw [hold] at hk'
                simp only [Option.map_some', Option.some.injEq] at hk'
                have hDk := D v k hold
                rw [hdc' v]
                push_cast
                omega
          have hmem_ready' : ∀ v ∈ (decSuccessors ((alGet g nid).getD [])
              st.inDegree st.ready).2, PredsDone d ctx v ∧
              alGet ctx.nodeStatuses v = none ∧
              alGet (decSuccessors ((alGet g nid).getD []) st.inDegree st.ready).1 v
                = some 0 := by
            intro v hv
            rw [hready] at hv
            rcases List.mem_append.mp hv with hvold | hvnew
            · obtain ⟨hpd, hst, hdeg⟩ := B v hvold
              have hvnotts : v ∉ (alGet g nid).getD [] := by
                intro hmem
                obtain ⟨k, hk, hle⟩ := hH v hmem
                rw [hdeg] at hk
                have hcntpos : 0 < ((alGet g nid).getD []).count v :=
                  List.count_pos_iff.mpr hmem
                have := Option.some.inj hk
                omega
              have hcnt0 : ((alGet g nid).getD []).count v = 0 :=
                List.count_eq_zero.mpr hvnotts
              refine ⟨hpd, hst, ?_⟩
              rw [D1 v, hdeg, hcnt0]
              simp
            · obtain ⟨hvts, hvdeg⟩ := (hnewly v).mp hvnew
              have hcntpos : 0 < ((alGet g nid).getD []).count v :=
                List.count_pos_iff.mpr hvts
              have hdegnew : alGet (decSuccessors ((alGet g nid).getD [])
                  st.inDegree st.ready).1 v = some 0 := by
                rw [D1 v, hvdeg]
                simp
              refine ⟨?_, ?_, hdegnew⟩
              · -- predecessors of v are all recorded
                intro e he ht
                have hedge : 0 < ((alGet g e.source).getD []).count e.target := hadj e he
                rw [ht] at hedge
                have hzero := hD' v 0 hdegnew
                by_cases hsrc : e.source ∈ st.doneOk ++ [nid]
                · rcases List.mem_append.mp hsrc with hs | hs
                  · exact C _ hs
                  · rw [List.mem_singleton.mp hs]
                    exact hcpo_nid
                · exfalso
                  have hnodup2 : ((st.doneOk ++ [nid]) ++ [e.source]).Nodup := by
                    rw [List.nodup_append]
                    exact ⟨hdone_nodup, List.nodup_singleton _, by simpa using hsrc⟩
                  have hle : doneCount g ((st.doneOk ++ [nid]) ++ [e.source]) v ≤
                      gIntoCount g v := doneCount_le_gInto _ _ _ hkeys hnodup2
                  rw [doneCount_append, doneCount_single] at hle
                  omega
              · -- not started yet
                have hk := D v _ hvdeg
                exact E v _ hvdeg (by omega)
          have hready_nodup : (decSuccessors ((alGet g nid).getD [])
              st.inDegree st.ready).2.Nodup := by
            rw [hready, List.nodup_append]
            refine ⟨B', hnodup_newly, ?_⟩
            intro a ha hb
            obtain ⟨_, _, hdeg⟩ := B a ha
            obtain ⟨hats, hadeg⟩ := (hnewly a).mp hb
            have hcntpos : 0 < ((alGet g nid).getD []).count a :=
              List.count_pos_iff.mpr hats
            rw [hdeg] at hadeg
            have := Option.some.inj hadeg
            omega
          apply ih _ st2 _ hnd_rest _ hstep
          · -- EngInvAux for the updated state
            refine ⟨A, hmem_ready', hready_nodup, ?_, hdone_nodup, hD', ?_, ?_, ?_, ?_, ?_, ?_⟩
            · intro u hu
              rcases List.mem_append.mp hu with hs | hs
              · exact C _ hs
              · rw [List.mem_singleton.mp hs]
                exact hcpo_nid
            · intro v hv
              have := Dom v hv
              rw [D1 v]
              cases hold : alGet st.inDegree v with
              | none => rw [hold] at this; exact absurd this (by simp)
              | some k => simp
            · intro v k' hk' hpos
              rw [D1 v] at hk'
              cases hold : alGet st.inDegree v with
              | none => rw [hold] at hk'; exact absurd hk' (by simp)
              | some k =>
                  rw [hold] at hk'
                  simp only [Option.map_some', Option.some.injEq] at hk'
                  exact E v k hold (by omega)
            · intro x
              simp only [List.mem_append, List.mem_singleton]
              constructor
              · rintro (hx | rfl)
                · exact Or.inl ((G x).mp hx)
                · exact Or.inr rfl
              · rintro (hx | rfl)
                · exact Or.inl ((G x).mpr hx)
                · exact Or.inr rfl
            · rw [List.nodup_append]
              exact ⟨H, List.nodup_singleton _, by simpa using hnotexec⟩
            · intro v hv0
              rw [D1 v] at hv0
              cases hold : alGet st.inDegree v with
              | none => rw [hold] at hv0; exact absurd hv0 (by simp)
              | some k =>
                  rw [hold] at hv0
                  simp only [Option.map_some', Option.some.injEq] at hv0
                  by_cases hvts : v ∈ (alGet g nid).getD []
                  · have hcntpos : 0 < ((alGet g nid).getD []).count v :=
                      List.count_pos_iff.mpr hvts
                    have hvnew : v ∈ newly := by
                      rw [hnewly v]
                      refine ⟨hvts, ?_⟩
                      rw [hold]
                      congr 1
                      omega
                    right; left
                    rw [hready]
                    exact List.mem_append.mpr (Or.inr hvnew)
                  · have hcnt0 : ((alGet g nid).getD []).count v = 0 :=
                      List.count_eq_zero.mpr hvts
                    have hk0 : k = 0 := by rw [hcnt0] at hv0; push_cast at hv0; omega
                    rcases I v (hk0 ▸ hold) with hx | hx | hx
                    · left
                      exact List.mem_append.mpr (Or.inl hx)
                    · right; left
                      rw [hready]
                      exact List.mem_append.mpr (Or.inl hx)
                    · rcases List.mem_cons.mp hx with rfl | hx2
                      · left
                        exact List.mem_append.mpr (Or.inr (List.mem_singleton.mpr rfl))
                      · right; right
                        exact hx2
            · intro x hx
              rcases List.mem_append.mp hx with hs | hs
              · exact J x hs
              · rw [List.mem_singleton.mp hs]
                exact hnode
          · -- per-result facts for the remaining results
            intro pr2 hpr2
            obtain ⟨hnode2, hdeg02, hnotdone2, hcpo2⟩ := hrs pr2 (List.mem_cons_of_mem _ hpr2)
            have hne_nid : pr2.1 ≠ nid := by
              intro h
              exact hnid_notin_rest (h ▸ List.mem_map_of_mem Prod.fst hpr2)
            have hnotts : pr2.1 ∉ (alGet g nid).getD [] := by
              intro hmem
              obtain ⟨k, hk, hle⟩ := hH pr2.1 hmem
              rw [hdeg02] at hk
              have hcntpos : 0 < ((alGet g nid).getD []).count pr2.1 :=
                List.count_pos_iff.mpr hmem
              have := Option.some.inj hk
              omega
            have hcnt0 : ((alGet g nid).getD []).count pr2.1 =
                0 := List.count_eq_zero.mpr hnotts
            refine ⟨hnode2, ?_, ?_, hcpo2⟩
            · rw [D1 pr2.1, hdeg02, hcnt0]
              simp
            · intro h
              rcases List.mem_append.mp h with hs | hs
              · exact hnotdone2 hs
              · exact hne_nid (List.mem_singleton.mp hs)

theorem engInv_of_aux {d : WorkflowDefinition} {g : List (String × List String)}
    {st : SchedState} {ctx : Ctx} {instr : Instr}
    (h : EngInvAux d g st ctx instr []) : EngInv d g st ctx instr := by
  obtain ⟨A, B, B', C, C', D, Dom, E, G, H, I, J⟩ := h
  refine ⟨A, B, B', C, C', D, Dom, E, G, H, ?_, J⟩
  intro v hv
  rcases I v hv with h | h | h
  · exact Or.inl h
  · exact Or.inr h
  · exact absurd h (List.not_mem_nil _)

theorem execLoop_inv (reg : List String) (vB : ValidateB) (eB : ExecB)
    (d : WorkflowDefinition) (g : List (String × List String))
    (hkeys : (alKeys g).Nodup)
    (hadj : ∀ e ∈ d.edges, 0 < ((alGet g e.source).getD []).count e.target) :
    ∀ (fuel : Nat) (st : SchedState) (ctx : Ctx) (instr : Instr),
      EngInv d g st ctx instr →
      (∀ p ∈ (execLoop reg vB eB g d.nodes fuel st ctx instr).2.2.begins,
        PredsDone d p.2 p.1) ∧
      (∀ st2, (execLoop reg vB eB g d.nodes fuel st ctx instr).1 = .ok st2 →
        EngInv d g st2 (execLoop reg vB eB g d.nodes fuel st ctx instr).2.1
          (execLoop reg vB eB g d.nodes fuel st ctx instr).2.2 ∧ st2.ready = []) := by
  intro fuel
  induction fuel with
  | zero =>
      intro st ctx instr hinv
      exact ⟨hinv.1, fun st2 h => absurd h (by simp [execLoop])⟩
  | succ fuel ih =>
      intro st ctx instr hinv
      cases hready : st.ready with
      | nil =>
          have hstep : execLoop reg vB eB g d.nodes (fuel + 1) st ctx instr =
              (.ok st, ctx, instr) := by
            simp only [execLoop, hready]
          rw [hstep]
          exact ⟨hinv.1, fun st2 h => ⟨by rw [← Except.ok.inj h]; exact hinv, by
            rw [← Except.ok.inj h]; exact hready⟩⟩
      | cons rdy rest =>
          obtain ⟨A, B, B', C, C', D, Dom, E, G, H, I, J⟩ := hinv
          cases hg : gatherTasks d.nodes (rdy :: rest) st.outputNodeId with
          | error e =>
              have hstep : execLoop reg vB eB g d.nodes (fuel + 1) st ctx instr =
                  (.error e, ctx, instr) := by
                simp only [execLoop, hready, hg]
              rw [hstep]
              exact ⟨A, fun st2 h => absurd h (by simp)⟩
          | ok pr =>
              obtain ⟨bs, out2⟩ := pr
              obtain ⟨gmap, gmem⟩ := gatherTasks_ok (rdy :: rest) st.outputNodeId bs out2 hg
              have hbs : ∀ n ∈ bs, alGet ctx.nodeStatuses n.id = none ∧
                  PredsDone d ctx n.id := by
                intro n hn
                have hid : n.id ∈ st.ready := by
                  rw [hready, ← gmap]
                  exact List.mem_map_of_mem _ hn
                obtain ⟨hpd, hst, _⟩ := B n.id hid
                exact ⟨hst, hpd⟩
              have hnodup : (bs.map (fun n => n.id)).Nodup := by
                rw [gmap, ← hready]
                exact B'
              obtain ⟨rbA, rbMap, rbRes, rbPres, rbFrame⟩ :=
                runBatch_spec reg vB eB d bs ctx instr A hbs hnodup
              have hrsmap : (runBatch reg vB eB bs ctx instr).1.map Prod.fst = st.ready := by
                rw [rbMap, gmap, hready]
              cases hpr : processResults g (runBatch reg vB eB bs ctx instr).1
                  { inDegree := st.inDegree, ready := [], executed := st.executed,
                    doneOk := st.doneOk, outputNodeId := out2 } with
              | error e =>
                  have hstep : execLoop reg vB eB g d.nodes (fuel + 1) st ctx instr =
                      (.error e, (runBatch reg vB eB bs ctx instr).2.1,
                        (runBatch reg vB eB bs ctx instr).2.2) := by
                    simp only [execLoop, hready, hg, hpr]
                  rw [hstep]
                  exact ⟨rbA, fun st2 h => absurd h (by simp)⟩
              | ok st3 =>
                  have hstep : execLoop reg vB eB g d.nodes (fuel + 1) st ctx instr =
                      execLoop reg vB eB g d.nodes fuel st3
                        (runBatch reg vB eB bs ctx instr).2.1
                        (runBatch reg vB eB bs ctx instr).2.2 := by
                    simp only [execLoop, hready, hg, hpr]
                  have haux : EngInvAux d g
                      { inDegree := st.inDegree, ready := [], executed := st.executed,
                        doneOk := st.doneOk, outputNodeId := out2 }
                      (runBatch reg vB eB bs ctx instr).2.1
                      (runBatch reg vB eB bs ctx instr).2.2
                      ((runBatch reg vB eB bs ctx instr).1.map Prod.fst) := by
                    refine ⟨rbA, fun v hv => absurd hv (List.not_mem_nil _),
                      List.nodup_nil, ?_, C', D, Dom, ?_, G, H, ?_, J⟩
                    · intro u hu
                      exact rbPres u (C u hu)
                    · intro v k hk hpos
                      have hvnot : v ∉ bs.map (fun n => n.id) := by
                        intro hvmem
                        have hvready : v ∈ st.ready := by rw [hready, ← gmap]; exact hvmem
                        obtain ⟨_, _, hdeg⟩ := B v hvready
                        rw [hdeg] at hk
                        have := Option.some.inj hk
                        omega
                      rw [rbFrame v hvnot]
                      exact E v k hk hpos
                    · intro v hv
                      rcases I v hv with h | h
                      · exact Or.inl h
                      · right; right
                        rw [hrsmap]
                        exact h
                  have hprops : ∀ pr2 ∈ (runBatch reg vB eB bs ctx instr).1,
                      (∃ n ∈ d.nodes, n.id = pr2.1) ∧
                      alGet st.inDegree pr2.1 = some 0 ∧
                      pr2.1 ∉ st.doneOk ∧
                      (∀ r, pr2.2 = .ok r → r.status ≠ "failed" →
                        CtxPredOk (runBatch reg vB eB bs ctx instr).2.1 pr2.1) := by
                    intro pr2 hpr2
                    have hid : pr2.1 ∈ st.ready := by
                      rw [← hrsmap]
                      exact List.mem_map_of_mem _ hpr2
                    obtain ⟨hpd, hst, hdeg⟩ := B pr2.1 hid
                    refine ⟨?_, hdeg, ?_, ?_⟩
                    · have : pr2.1 ∈ bs.map (fun n => n.id) := by
                        rw [gmap, ← hready]
                        exact hid
                      obtain ⟨n, hn, hnid⟩ := List.mem_map.mp this
                      exact ⟨n, gmem n hn, hnid⟩
                    · intro hmem
                      have := (C pr2.1 hmem).1
                      rw [hst] at this
                      exact absurd this (by simp)
                    · intro r hr hne
                      exact rbRes pr2 hpr2 r hr hne
                  have hnd : ((runBatch reg vB eB bs ctx instr).1.map Prod.fst).Nodup := by
                    rw [hrsmap]
                    exact B'
                  have hinv3 := processResults_inv d g
                    (runBatch reg vB eB bs ctx instr).2.1
                    (runBatch reg vB eB bs ctx instr).2.2 hkeys hadj
                    (runBatch reg vB eB bs ctx instr).1
                    { inDegree := st.inDegree, ready := [], executed := st.executed,
                      doneOk := st.doneOk, outputNodeId := out2 } st3
                    haux hnd hprops hpr
                  rw [hstep]
                  exact ih st3 (runBatch reg vB eB bs ctx instr).2.1
                    (runBatch reg vB eB bs ctx instr).2.2 (engInv_of_aux hinv3)

theorem executeGraph_inv (reg : List String) (vB : ValidateB) (eB : ExecB)
    (d : WorkflowDefinition) (g : List (String × List String))
    (ctx : Ctx) (instr : Instr)
    (hkeys : (alKeys g).Nodup)
    (hadj : ∀ e ∈ d.edges, 0 < ((alGet g e.source).getD []).count e.target)
    (hstat : ∀ v, alGet ctx.nodeStatuses v = none)
    (hA : ∀ p ∈ instr.begins, PredsDone d p.2 p.1) :
    (∀ p ∈ (executeGraph reg vB eB g d.nodes ctx instr).2.2.begins,
      PredsDone d p.2 p.1) ∧
    (∀ out, (executeGraph reg vB eB g d.nodes ctx instr).1 = .ok out →
      ∃ st, EngInv d g st (executeGraph reg vB eB g d.nodes ctx instr).2.1
          (executeGraph reg vB eB g d.nodes ctx instr).2.2 ∧
        st.ready = [] ∧ st.executed.length = g.length) := by
  have hIDnodup : (alKeys (initInDegree g)).Nodup := initInDegree_keys_nodup hkeys
  cases hr0 : (initInDegree g).filterMap (fun p => if p.2 = 0 then some p.1 else none) with
  | nil =>
      have hstep : executeGraph reg vB eB g d.nodes ctx instr =
          (.error "No start nodes found in workflow", ctx, instr) := by
        simp only [executeGraph, hr0]
      rw [hstep]
      exact ⟨hA, fun out h => absurd h (by simp)⟩
  | cons r0 rrest =>
      have hready_facts : ∀ v ∈ r0 :: rrest, alGet (initInDegree g) v = some 0 := by
        intro v hv
        rw [← hr0] at hv
        obtain ⟨p, hp, hp2, hp1⟩ := mem_ready0.mp hv
        have : p = (v, 0) := by
          obtain ⟨a, b⟩ := p
          simp only at hp1 hp2
          rw [hp1, hp2]
        rw [this] at hp
        exact alGet_of_mem_nodup hIDnodup hp
      have hinv0 : EngInv d g
          { inDegree := initInDegree g, ready := r0 :: rrest, executed := [],
            doneOk := [], outputNodeId := none } ctx instr := by
        refine ⟨hA, ?_, ?_, ?_, List.nodup_nil, ?_, ?_, ?_, ?_, List.nodup_nil, ?_, ?_⟩
        · intro v hv
          have hdeg := hready_facts v hv
          refine ⟨?_, hstat v, hdeg⟩
          have hginto : gIntoCount g v = 0 := by
            rw [initInDegree_get] at hdeg
            split at hdeg
            · have := Option.some.inj hdeg
              omega
            · exact absurd hdeg (by simp)
          intro e he ht
          exfalso
          have hcnt := hadj e he
          rw [ht] at hcnt
          have := gInto_pos_of_count hkeys hcnt
          omega
        · have hsub := ready0_sublist (initInDegree g)
          rw [hr0] at hsub
          exact hsub.nodup hIDnodup
        · intro u hu
          exact absurd hu (List.not_mem_nil _)
        · intro v k hk
          rw [initInDegree_get] at hk
          split at hk
          · have := Option.some.inj hk
            have hdc : doneCount g [] v = 0 := by simp [doneCount]
            rw [hdc]
            omega
          · exact absurd hk (by simp)
        · intro v hv
          rw [initInDegree_get]
          rcases hv with h | h
          · rw [if_pos (Or.inr h)]
            simp
          · rw [if_pos (Or.inl h)]
            simp
        · intro v k _ _
          exact hstat v
        · intro x
          simp
        · intro v hv
          right
          rw [← hr0]
          have hmem := mem_of_alGet hv
          exact mem_ready0.mpr ⟨(v, 0), hmem, rfl, rfl⟩
        · intro x hx
          exact absurd hx (List.not_mem_nil _)
      obtain ⟨elA, elOk⟩ := execLoop_inv reg vB eB d g hkeys hadj
        ((initInDegree g).length + 1)
        { inDegree := initInDegree g, ready := r0 :: rrest, executed := [],
          doneOk := [], outputNodeId := none } ctx instr hinv0
      rcases hEL : execLoop reg vB eB g d.nodes ((initInDegree g).length + 1)
          { inDegree := initInDegree g, ready := r0 :: rrest, executed := [],
            doneOk := [], outputNodeId := none } ctx instr with ⟨elres, elctx2, elinstr2⟩
      rw [hEL] at elA elOk
      simp only at elA elOk
      cases elres with
      | error e =>
          have hstep : executeGraph reg vB eB g d.nodes ctx instr =
              (.error e, elctx2, elinstr2) := by
            simp only [executeGraph, hr0, hEL]
          rw [hstep]
          exact ⟨elA, fun out h => absurd h (by simp)⟩
      | ok st =>
          obtain ⟨hinvF, hreadyF⟩ := elOk st rfl
          by_cases hlen : st.executed.length = g.length
          · have hstep : executeGraph reg vB eB g d.nodes ctx instr =
                (match st.outputNodeId with
                 | some oid => (.ok ((alGet elctx2.nodeOutputs oid).getD .null),
                     elctx2, elinstr2)
                 | none => (.ok (.dict (st.executed.map
                     (fun nid => (nid, (alGet elctx2.nodeOutputs nid).getD .null)))),
                     elctx2, elinstr2)) := by
              simp only [executeGraph, hr0, hEL, if_pos hlen]
            rw [hstep]
            cases hout : st.outputNodeId with
            | some oid =>
                exact ⟨elA, fun out h => ⟨st, hinvF, hreadyF, hlen⟩⟩
            | none =>
                exact ⟨elA, fun out h => ⟨st, hinvF, hreadyF, hlen⟩⟩
          · have hstep : executeGraph reg vB eB g d.nodes ctx instr =
                (.error "Not all nodes were executed", elctx2, elinstr2) := by
              simp only [executeGraph, hr0, hEL, if_neg hlen]
            rw [hstep]
            exact ⟨elA, fun out h => absurd h (by simp)⟩

theorem ctxStart_statuses (ctx : Ctx) : (ctxStart ctx).2.nodeStatuses = ctx.nodeStatuses := by
  dsimp only [ctxStart]
  split
  · rename_i e c heq
    have hc : (ctxAddLog { ctx with status := "running" } "info"
        "Workflow execution started").2 = c := congrArg Prod.snd heq
    rw [← hc]
    exact (ctxAddLog_fields _ _ _).1
  · rename_i u c heq
    have hc : (ctxAddLog { ctx with status := "running" } "info"
        "Workflow execution started").2 = c := congrArg Prod.snd heq
    have hfield := (ctxAddLog_fields { ctx with status := "running" } "info"
      "Workflow execution started").1
    rw [hc] at hfield
    split <;> exact hfield

theorem engineCatch_instr (c : Ctx) (i : Instr) (m : String) :
    (engineCatch c i m).2.2 = i := by
  dsimp only [engineCatch]
  split <;> rfl

theorem engineCatch_failed (c : Ctx) (i : Instr) (m : String) :
    ∀ r, (engineCatch c i m).1 = .ok r → r.status = "failed" := by
  dsimp only [engineCatch]
  split
  · intro r hr
    exact absurd hr (by simp)
  · intro r hr
    have := Except.ok.inj hr
    rw [← this]

theorem executeWorkflow_spec (reg : List String) (vB : ValidateB) (eB : ExecB)
    (eid wid : String) (d : WorkflowDefinition) (input : List (String × Value))
    (cb : CbKind) :
    (∀ p ∈ (executeWorkflow reg vB eB eid wid d input cb).2.2.begins,
      PredsDone d p.2 p.1) ∧
    (∀ r, (executeWorkflow reg vB eB eid wid d input cb).1 = .ok r →
      r.status = "failed" ∨
      (r.status = "completed" ∧ ∃ st ctx2 instr2,
        EngInv d (buildGraph d) st ctx2 instr2 ∧
        st.ready = [] ∧ st.executed.length = (buildGraph d).length)) := by
  have hkeys := buildGraph_keys_nodup d
  have hadj : ∀ e ∈ d.edges,
      0 < ((alGet (buildGraph d) e.source).getD []).count e.target :=
    fun e he => (count_adj_pos_iff d e.source e.target).mpr ⟨e, he, rfl, rfl⟩
  rcases hcs : ctxStart (initCtx eid wid input cb) with ⟨csres, c1⟩
  have hstat1 : ∀ v, alGet c1.nodeStatuses v = none := by
    have h1 : (ctxStart (initCtx eid wid input cb)).2 = c1 := congrArg Prod.snd hcs
    intro v
    rw [← h1, ctxStart_statuses]
    rfl
  cases csres with
  | error e =>
      have hstep : executeWorkflow reg vB eB eid wid d input cb =
          engineCatch c1 ⟨[], []⟩ ("Workflow execution failed: " ++ e) := by
        simp only [executeWorkflow, hcs]
      rw [hstep, engineCatch_instr]
      exact ⟨fun p hp => absurd hp (List.not_mem_nil _),
        fun r hr => Or.inl (engineCatch_failed _ _ _ r hr)⟩
  | ok u =>
      cases hcyc : hasCycle (buildGraph d) with
      | true =>
          have hstep : executeWorkflow reg vB eB eid wid d input cb =
              engineCatch c1 ⟨[], []⟩
                "Workflow execution failed: Workflow contains circular dependencies" := by
            simp only [executeWorkflow, hcs, hcyc, if_true, Bool.false_eq_true, if_false]
          rw [hstep, engineCatch_instr]
          exact ⟨fun p hp => absurd hp (List.not_mem_nil _),
            fun r hr => Or.inl (engineCatch_failed _ _ _ r hr)⟩
      | false =>
          obtain ⟨egA, egOk⟩ := executeGraph_inv reg vB eB d (buildGraph d) c1 ⟨[], []⟩
            hkeys hadj hstat1 (fun p hp => absurd hp (List.not_mem_nil _))
          rcases hEG : executeGraph reg vB eB (buildGraph d) d.nodes c1 ⟨[], []⟩
            with ⟨egres, c2, instr2⟩
          rw [hEG] at egA egOk
          simp only at egA egOk
          cases egres with
          | error e =>
              have hstep : executeWorkflow reg vB eB eid wid d input cb =
                  engineCatch c2 instr2 ("Workflow execution failed: " ++ e) := by
                simp only [executeWorkflow, hcs, hcyc, if_true, Bool.false_eq_true, if_false, hEG]
              rw [hstep, engineCatch_instr]
              exact ⟨egA, fun r hr => Or.inl (engineCatch_failed _ _ _ r hr)⟩
          | ok out =>
              rcases hcc : ctxComplete c2 out with ⟨ccres, c3⟩
              cases ccres with
              | error e =>
                  have hstep : executeWorkflow reg vB eB eid wid d input cb =
                      engineCatch c3 instr2 ("Workflow execution failed: " ++ e) := by
                    simp only [executeWorkflow, hcs, hcyc, if_true, Bool.false_eq_true, if_false, hEG, hcc]
                  rw [hstep, engineCatch_instr]
                  exact ⟨egA, fun r hr => Or.inl (engineCatch_failed _ _ _ r hr)⟩
              | ok u2 =>
                  have hstep : executeWorkflow reg vB eB eid wid d input cb =
                      (.ok { status := "completed", output := some out, error := none },
                        c3, instr2) := by
                    simp only [executeWorkflow, hcs, hcyc, if_true, Bool.false_eq_true, if_false, hEG, hcc]
                  rw [hstep]
                  refine ⟨egA, fun r hr => Or.inr ⟨?_, ?_⟩⟩
                  · rw [← Except.ok.inj hr]
                  · obtain ⟨st, hinv, hready, hlen⟩ := egOk out rfl
                    exact ⟨st, c2, instr2, hinv, hready, hlen⟩

theorem ghost_contra (d : WorkflowDefinition) (st : SchedState) (ctx2 : Ctx)
    (instr2 : Instr)
    (hinv : EngInv d (buildGraph d) st ctx2 instr2) (hready : st.ready = [])
    (hlen : st.executed.length = (buildGraph d).length)
    (hghost : ∃ e ∈ d.edges, (∀ n ∈ d.nodes, n.id ≠ e.source) ∨
      (∀ n ∈ d.nodes, n.id ≠ e.target)) : False := by
  obtain ⟨A, B, B', C, C', D, Dom, E, G, H, I, J⟩ := hinv
  have hkeys := buildGraph_keys_nodup d
  have hsub : st.executed ⊆ alKeys (buildGraph d) := by
    intro x hx
    obtain ⟨n, hn, hid⟩ := J x hx
    exact (mem_keys_buildGraph d x).mpr (Or.inl ⟨n, hn, hid⟩)
  have hsper : List.Subperm st.executed (alKeys (buildGraph d)) :=
    List.subperm_of_subset H hsub
  have hklen : (alKeys (buildGraph d)).length = (buildGraph d).length :=
    List.length_map _ _
  have hperm : List.Perm st.executed (alKeys (buildGraph d)) := by
    obtain ⟨l, hp, hs⟩ := hsper
    have hleq : l.length = (alKeys (buildGraph d)).length := by
      have h1 := hp.length_eq
      omega
    have := hs.eq_of_length hleq
    subst this
    exact hp.symm
  obtain ⟨e, he, hcase⟩ := hghost
  rcases hcase with hsrc | htgt
  · -- ghost source: it is a graph key, hence executed, hence a node id
    have hkey : e.source ∈ alKeys (buildGraph d) :=
      (mem_keys_buildGraph d e.source).mpr (Or.inr ⟨e, he, rfl⟩)
    have hexec : e.source ∈ st.executed := hperm.symm.subset hkey
    obtain ⟨n, hn, hid⟩ := J e.source hexec
    exact hsrc n hn hid
  · -- ghost target: positive in-degree fully discharged forces execution
    have hcnt : 0 < ((alGet (buildGraph d) e.source).getD []).count e.target :=
      (count_adj_pos_iff d e.source e.target).mpr ⟨e, he, rfl, rfl⟩
    have hgpos : 0 < gIntoCount (buildGraph d) e.target :=
      gInto_pos_of_count hkeys hcnt
    have hsome := Dom e.target (Or.inl hgpos)
    obtain ⟨k, hk⟩ := Option.isSome_iff_exists.mp hsome
    have hDk := D e.target k hk
    have hpermdone : List.Perm st.doneOk (alKeys (buildGraph d)) := by
      refine List.Perm.trans ?_ hperm
      rw [List.perm_ext_iff_of_nodup C' H]
      intro a
      exact (G a).symm
    have hdc : doneCount (buildGraph d) st.doneOk e.target =
        gIntoCount (buildGraph d) e.target := by
      rw [doneCount_perm hpermdone, doneCount_keys _ _ hkeys]
    have hk0 : k = 0 := by
      rw [hdc] at hDk
      omega
    rcases I e.target (hk0 ▸ hk) with hx | hx
    · obtain ⟨n, hn, hid⟩ := J e.target hx
      exact htgt n hn hid
    · rw [hready] at hx
      exact absurd hx (List.not_mem_nil _)

/-- C1: for every edge u → v of a submitted definition and every run of
execute_workflow, whenever the engine begins running node v (entry of
NodeExecutor.run, snapshotted in the begins trace), predecessor u is already
recorded with status success and its output is present both in
node_outputs[u] and under the context variable nodes.u — so v is dispatched
only after all its predecessors completed successfully. -/
theorem claim_C1_predecessors_done_before_dispatch (reg : List String)
    (vB : ValidateB) (eB : ExecB) (eid wid : String) (d : WorkflowDefinition)
    (input : List (String × Value)) (cb : CbKind) :
    ∀ pr ∈ (executeWorkflow reg vB eB eid wid d input cb).2.2.begins,
      ∀ e ∈ d.edges, e.target = pr.1 →
        alGet pr.2.nodeStatuses e.source = some "success" ∧
        (alGet pr.2.nodeOutputs e.source).isSome ∧
        (alGet pr.2.vars ("nodes." ++ e.source)).isSome := by
  intro pr hpr e he ht
  exact (executeWorkflow_spec reg vB eB eid wid d input cb).1 pr hpr e he ht

theorem claim_C1_witness :
    chainSnap.1 = "b" ∧
    alGet chainSnap.2.nodeStatuses "a" = some "success" ∧
    (alGet chainSnap.2.nodeOutputs "a").isSome ∧
    (alGet chainSnap.2.vars ("nodes." ++ "a")).isSome := by
  have hmem : chainSnap ∈ chainRun.2.2.begins := by
    have h2 : chainRun.2.2.begins =
        chainRun.2.2.begins.getD 0 ("", initCtx "" "" [] .noCallback) ::
          chainSnap :: [] := rfl
    rw [h2]
    exact List.mem_cons_of_mem _ (List.mem_cons_self _ _)
  have he : ({ source := "a", target := "b" } : FlowEdge) ∈ chainDef.edges :=
    List.mem_cons_self _ _
  have h := claim_C1_predecessors_done_before_dispatch builtinRegistry allValid echoExec
    "e1" "w1" chainDef [] .benign chainSnap hmem { source := "a", target := "b" } he rfl
  exact ⟨rfl, h.1, h.2.1, h.2.2⟩

/-- C7 counterexample: the ghost-target definition (edge a → ghost with no
node ghost) is not rejected by graph validation — the run proceeds, node a's
execute is invoked, and only when ghost becomes ready does the missing-node
lookup abort the run with a failed result. -/
theorem claim_C7_counterexample :
    ghostRun.1 = .ok { status := "failed", output := none,
                       error := some "Workflow execution failed: Node not found: ghost" } ∧
    ghostRun.2.2.execs = ["a"] :=
  ⟨rfl, rfl⟩

/-- C7 (amended): _validate_graph only checks for cycles, so a definition
with an edge endpoint that is no node's id is not rejected up front and
executes may run; what does hold is that such a definition can never
complete — every result dict the run returns has status failed. -/
theorem claim_C7_unknown_endpoint_never_completes (reg : List String)
    (vB : ValidateB) (eB : ExecB) (eid wid : String) (d : WorkflowDefinition)
    (input : List (String × Value)) (cb : CbKind)
    (hghost : ∃ e ∈ d.edges, (∀ n ∈ d.nodes, n.id ≠ e.source) ∨
      (∀ n ∈ d.nodes, n.id ≠ e.target)) :
    ∀ r, (executeWorkflow reg vB eB eid wid d input cb).1 = .ok r →
      r.status = "failed" := by
  intro r hr
  rcases (executeWorkflow_spec reg vB eB eid wid d input cb).2 r hr with
    h | ⟨_, st, ctx2, instr2, hinv, hready, hlen⟩
  · exact h
  · exact (ghost_contra d st ctx2 instr2 hinv hready hlen hghost).elim

theorem claim_C7_witness :
    (∃ e ∈ ghostDef.edges, (∀ n ∈ ghostDef.nodes, n.id ≠ e.source) ∨
      (∀ n ∈ ghostDef.nodes, n.id ≠ e.target)) ∧
    ghostRun.1 = .ok { status := "failed", output := none,
                       error := some "Workflow execution failed: Node not found: ghost" } ∧
    ({ status := "failed", output := none,
       error := some "Workflow execution failed: Node not found: ghost" } :
        EngineRes).status = "failed" := by
  have hghost : ∃ e ∈ ghostDef.edges, (∀ n ∈ ghostDef.nodes, n.id ≠ e.source) ∨
      (∀ n ∈ ghostDef.nodes, n.id ≠ e.target) := by
    refine ⟨{ source := "a", target := "ghost" }, List.mem_cons_self _ _, Or.inr ?_⟩
    intro n hn
    have hn2 : n = { id := "a", type := "input", config := [] } := by
      simpa [ghostDef] using hn
    rw [hn2]
    decide
  refine ⟨hghost, rfl, ?_⟩
  exact claim_C7_unknown_endpoint_never_completes builtinRegistry allValid echoExec
    "e2" "w2" ghostDef [] .benign hghost
    { status := "failed", output := none,
      error := some "Workflow execution failed: Node not found: ghost" } rfl

end Workflow
